import Mathlib

/-!
Shallow embedding of the hybrid retrieval-and-ranking engine of the
code-historian repository (`src/services/search.ts`, `src/services/reranker.ts`,
`src/constants.ts`, `src/utils/index.ts`), together with proofs settling the
frozen claims about its specification.

JavaScript numbers are modelled by `ℚ` (all scores the claims are about are
produced by exact arithmetic on small values), timestamps by `ℤ` milliseconds,
and JS `Map`s by insertion-ordered association lists.  `Array.prototype.sort`
(stable) is modelled by `List.insertionSort` with the relation
"comparator ≤ 0", which is stable in the same sense.
-/

namespace CodeHistorian

/-- A change record as stored in the metadata database, restricted to the
fields the search engine reads (`src/types`). -/
structure ChangeRecord where
  id : String
  filePath : String
  symbols : List String
  diff : String
  summary : Option String
  timestamp : ℤ
  eventType : String
deriving DecidableEq, Repr

/-- One hit of the vector store: `{ changeId, score }` (`src/types`,
`VectorSearchResult`). -/
structure VectorSearchResult where
  changeId : String
  score : ℚ
deriving DecidableEq, Repr

/-- Per-query hybrid parameters (`src/types`, `HybridSearchParams`). -/
structure HybridSearchParams where
  vectorWeight : ℚ
  keywordWeight : ℚ
  rerankTopK : ℕ
deriving DecidableEq, Repr

/-- One entry of the normalizer output: `{ id, score, normalizedScore }`
(`search.ts`, interface `NormalizedScores.results`). -/
structure NormEntry where
  id : String
  score : ℚ
  normalizedScore : ℚ
deriving DecidableEq, Repr

/-- Output of `SearchEngine.normalizeScores` (`search.ts`, interface
`NormalizedScores`). -/
structure NormalizedScores where
  results : List NormEntry
  min : ℚ
  max : ℚ
deriving DecidableEq, Repr

/-- A fused candidate (`search.ts`, interface `RankedResult`).  Optional
fields are `undefined` until assigned, modelled by `Option`. -/
structure RankedResult where
  changeId : String
  vectorRank : Option ℕ
  keywordRank : Option ℕ
  vectorScore : Option ℚ
  keywordScore : Option ℚ
  normalizedVectorScore : Option ℚ
  normalizedKeywordScore : Option ℚ
  rrfScore : ℚ
  rerankerScore : Option ℚ
deriving DecidableEq, Repr

/-- Document handed to the reranker (`reranker.ts`, `RerankerDocument`). -/
structure RerankerDocument where
  id : String
  text : String
  originalScore : Option ℚ
deriving DecidableEq, Repr

/-- Reranker output entry (`reranker.ts`, `RerankedResult`). -/
structure RerankedResult where
  id : String
  score : ℚ
  originalScore : Option ℚ
deriving DecidableEq, Repr

/-- A millisecond time range as produced by `parseTimeExpression`
(`utils/index.ts`). -/
structure TimeRange where
  start : ℤ
  stop : ℤ
deriving DecidableEq, Repr

/-- Search filters, restricted to the fields `enrichFilters` touches
(`src/types`, `SearchFilters`). -/
structure SearchFilters where
  timeRange : Option TimeRange
  filePatterns : Option (List String)
deriving DecidableEq, Repr

/-- Hydrated search result, restricted to the fields `findSimilar` fills
(`src/types`, `SearchResult`). -/
structure SearchResult where
  change : ChangeRecord
  score : ℚ
  vectorScore : Option ℚ
deriving DecidableEq, Repr

/-! ## Constants (`src/constants.ts`, `SEARCH_DEFAULTS`) -/

namespace SEARCH_DEFAULTS

def VECTOR_WEIGHT : ℚ := 0.6

def KEYWORD_WEIGHT : ℚ := 0.4

def RRF_K : ℚ := 60

def RERANK_TOP_K : ℕ := 50

def MAX_RESULTS : ℕ := 20

def MIN_VECTOR_SCORE : ℚ := 0.3

def MIN_KEYWORD_SCORE : ℚ := 0.1

end SEARCH_DEFAULTS

/-! ## Score normalization (`search.ts`, `SearchEngine.normalizeScores`) -/

/-- Model of `SearchEngine.normalizeScores`: min-max scaling to `[0,1]` (`1` for every
entry when the range is zero), then the entries whose `normalizedScore` is
below `minThreshold` are filtered out.  `Math.min(...scores)` /
`Math.max(...scores)` over the non-empty score list are folds of `min` / `max`
seeded with the first score. -/
def normalizeScores (results : List (String × ℚ)) (minThreshold : ℚ) :
    NormalizedScores :=
  match results with
  | [] => ⟨[], 0, 0⟩
  | r :: rs =>
    let scores := (r :: rs).map Prod.snd
    let mn := scores.foldl min r.2
    let mx := scores.foldl max r.2
    let range := mx - mn
    let normalized := (r :: rs).map fun p =>
      NormEntry.mk p.1 p.2 (if 0 < range then (p.2 - mn) / range else 1)
    ⟨normalized.filter fun e => minThreshold ≤ e.normalizedScore, mn, mx⟩

/-! ## JS `Map` model

`reciprocalRankFusion` accumulates candidates in a `Map<string, RankedResult>`.
A JS `Map` iterates in insertion order and `set` on an existing key updates the
entry in place; we model it as a list of `RankedResult`s keyed by `changeId`. -/

/-- JS `scoreMap.set(id, e)`: replace the entry with the same `changeId` in
place, else append. -/
def mapSet : List RankedResult → RankedResult → List RankedResult
  | [], e => [e]
  | x :: xs, e => if x.changeId = e.changeId then e :: xs else x :: mapSet xs e

/-- JS `scoreMap.get(id)`: the (first, and in all our uses unique) entry with the
given `changeId`. -/
def mapGet (m : List RankedResult) (id : String) : Option RankedResult :=
  m.find? fun x => x.changeId = id

/-- Keys of the score map, in insertion order. -/
def mapKeys (m : List RankedResult) : List String :=
  m.map fun x => x.changeId

/-- JS `new Map(pairs).get(id)`: a JS `Map` built from a pair list keeps the
*last* binding of a duplicated key, so we look the key up in the reversed
list. -/
def pairLookup (l : List (String × ℚ)) (id : String) : Option ℚ :=
  (l.reverse.find? fun p => p.1 = id).map Prod.snd

/-! ## Reciprocal rank fusion (`search.ts`, `SearchEngine.reciprocalRankFusion`) -/

/-- The entry written for the vector result at 0-based index `i`
(`reciprocalRankFusion`, first `forEach`): rank `i+1`, RRF contribution
`vectorWeight * (1 / (k + rank))`, normalized score looked up with default
`0`. -/
def vEntry (vw k : ℚ) (nv : String → ℚ) (i : ℕ) (r : VectorSearchResult) :
    RankedResult :=
  { changeId := r.changeId
    vectorRank := some (i + 1)
    keywordRank := none
    vectorScore := some r.score
    keywordScore := none
    normalizedVectorScore := some (nv r.changeId)
    normalizedKeywordScore := none
    rrfScore := vw * (1 / (k + (i + 1 : ℕ)))
    rerankerScore := none }

/-- The vector-results loop of `reciprocalRankFusion`
(`vectorResults.forEach((result, index) => ...)`), written as a recursion
carrying the 0-based index. -/
def processVector (vw k : ℚ) (nv : String → ℚ) :
    ℕ → List VectorSearchResult → List RankedResult → List RankedResult
  | _, [], m => m
  | n, r :: rs, m => processVector vw k nv (n + 1) rs (mapSet m (vEntry vw k nv n r))

/-- The fresh entry written for the keyword result at 0-based index `j` when
its id is not yet in the score map (`reciprocalRankFusion`, second `forEach`,
`else` branch).  `keywordScore` is `Math.abs(result.rank)`. -/
def kEntry (kw k : ℚ) (nk : String → ℚ) (j : ℕ) (c : ChangeRecord × ℚ) :
    RankedResult :=
  { changeId := c.1.id
    vectorRank := none
    keywordRank := some (j + 1)
    vectorScore := none
    keywordScore := some |c.2|
    normalizedVectorScore := none
    normalizedKeywordScore := some (nk c.1.id)
    rrfScore := kw * (1 / (k + (j + 1 : ℕ)))
    rerankerScore := none }

/-- The in-place update of an existing entry for the keyword result at
0-based index `j` (`reciprocalRankFusion`, second `forEach`, `if (existing)`
branch). -/
def kUpdate (kw k : ℚ) (nk : String → ℚ) (j : ℕ) (c : ChangeRecord × ℚ)
    (e : RankedResult) : RankedResult :=
  { e with
    keywordRank := some (j + 1)
    keywordScore := some |c.2|
    normalizedKeywordScore := some (nk c.1.id)
    rrfScore := e.rrfScore + kw * (1 / (k + (j + 1 : ℕ))) }

/-- The keyword-results loop of `reciprocalRankFusion`
(`keywordResults.forEach((result, index) => ...)`). -/
def processKeyword (kw k : ℚ) (nk : String → ℚ) :
    ℕ → List (ChangeRecord × ℚ) → List RankedResult → List RankedResult
  | _, [], m => m
  | n, c :: cs, m =>
    processKeyword kw k nk (n + 1) cs
      (match mapGet m c.1.id with
       | some existing => mapSet m (kUpdate kw k nk n c existing)
       | none => mapSet m (kEntry kw k nk n c))

/-- The overlap-boost pass of `reciprocalRankFusion`: every entry present in
both legs has its score multiplied by
`1 + 0.2 * Math.min(1, normalizedVectorScore * normalizedKeywordScore)`
(missing normalized scores default to `0`). -/
def boostEntry (e : RankedResult) : RankedResult :=
  if e.vectorRank.isSome ∧ e.keywordRank.isSome then
    { e with
      rrfScore := e.rrfScore *
        (1 + 0.2 * min 1 ((e.normalizedVectorScore.getD 0) *
          (e.normalizedKeywordScore.getD 0))) }
  else e

/-- The comparator `(a, b) => b.rrfScore - a.rrfScore` of the final sort of
`reciprocalRankFusion`, as the relation "`a` may precede `b`". -/
def rrfDescLe (a b : RankedResult) : Prop := b.rrfScore ≤ a.rrfScore

instance : DecidableRel rrfDescLe := fun a b =>
  inferInstanceAs (Decidable (b.rrfScore ≤ a.rrfScore))

/-- The normalized-score lookup of `reciprocalRankFusion`
(`normalizedVectorMap.get(id) ?? 0` over the map built from a normalizer
output). -/
def normLookup (ns : NormalizedScores) (id : String) : ℚ :=
  (pairLookup (ns.results.map fun e => (e.id, e.normalizedScore)) id).getD 0

/-- Model of `SearchEngine.reciprocalRankFusion`: build the score map from both result
lists (ranks are 1-based positions), apply the overlap boost, and stable-sort
descending by fused score.  The normalized-score lookup maps are built from
the normalizer outputs with default `0` for absent ids. -/
def reciprocalRankFusion (vectorResults : List VectorSearchResult)
    (keywordResults : List (ChangeRecord × ℚ)) (params : HybridSearchParams)
    (normalizedVector normalizedKeyword : NormalizedScores) :
    List RankedResult :=
  let k := SEARCH_DEFAULTS.RRF_K
  let nv := normLookup normalizedVector
  let nk := normLookup normalizedKeyword
  let afterVector := processVector params.vectorWeight k nv 0 vectorResults []
  let afterKeyword := processKeyword params.keywordWeight k nk 0 keywordResults afterVector
  (afterKeyword.map boostEntry).insertionSort rrfDescLe

/-! ## The search pipeline around fusion (`search.ts`, `SearchEngine.search`) -/

/-- Model of `SearchEngine.vectorSearch`, which wraps the embedding call and the vector-store
query in `try/catch` and degrades to `[]` on any error; the outcome of the
wrapped code is passed in as an `Except`. -/
def vectorSearch (leg : Except String (List VectorSearchResult)) :
    List VectorSearchResult :=
  match leg with
  | .ok results => results
  | .error _ => []

/-- The ranking part of `SearchEngine.search` (up to hydration): run the two
legs, normalize each with its threshold from `SEARCH_DEFAULTS`, and fuse.
The vector leg is given as the `Except` outcome of its wrapped body; the
keyword leg as the record/rank list the metadata store returned. -/
def searchRanked (vectorLeg : Except String (List VectorSearchResult))
    (keywordResults : List (ChangeRecord × ℚ)) (params : HybridSearchParams) :
    List RankedResult :=
  let vectorResults := vectorSearch vectorLeg
  let normalizedVector :=
    normalizeScores (vectorResults.map fun r => (r.changeId, r.score))
      SEARCH_DEFAULTS.MIN_VECTOR_SCORE
  let normalizedKeyword :=
    normalizeScores (keywordResults.map fun r => (r.1.id, r.2))
      SEARCH_DEFAULTS.MIN_KEYWORD_SCORE
  reciprocalRankFusion vectorResults keywordResults params normalizedVector
    normalizedKeyword

/-! ## Reranker (`reranker.ts`) -/

/-- Shape of a HuggingFace reranker response, as far as
`extractScoreFromResult` inspects it: a bare number, a string, an array, an
object (restricted to the two fields read, `label` and `score`, each possibly
absent), or `null`. -/
inductive HFJson where
  | num (q : ℚ)
  | str (s : String)
  | arr (l : List HFJson)
  | obj (label : Option String) (score : Option ℚ)
  | null

/-- JS `value?.score`: only objects carry a `score` property. -/
def objScore : HFJson → Option ℚ
  | .obj _ s => s
  | _ => none

/-- JS `value?.label`. -/
def objLabel : HFJson → Option String
  | .obj l _ => l
  | _ => none

/-- Model of `RerankerService.extractScoreFromResult`: number → itself; array → first
element if a number, else for a nested array the score of the first item
labelled `LABEL_1`/`entailment`/`"1"` (falling back to the first item's
score), else the first element's `score` property; a bare object's `score`
property; otherwise `null`.  An array reaching the trailing
`'score' in result` check fails it, and an object without the property yields
the same `null`/`undefined` outcome for every caller. -/
def extractScoreFromResult : HFJson → Option ℚ
  | .num q => some q
  | .arr [] => none
  | .arr (first :: _) =>
    match first with
    | .num q => some q
    | .arr inner =>
      let positive := inner.find? fun item =>
        decide (objLabel item = some "LABEL_1" ∨ objLabel item = some "entailment" ∨
          objLabel item = some "1")
      match positive.bind objScore with
      | some s => some s
      | none =>
        match inner.head?.bind objScore with
        | some s => some s
        | none => none
    | .obj _ (some s) => some s
    | _ => none
  | .obj _ s => s
  | _ => none

/-- The per-document score of the `rerankWithHuggingFace` loop:
`extractScoreFromResult(result) ?? doc.originalScore ?? 0`.  The same fallback
is pushed when the HTTP call itself fails, which is modelled by handing the
document an unparseable payload. -/
def hfScore (doc : RerankerDocument) (payload : HFJson) : ℚ :=
  (extractScoreFromResult payload).getD (doc.originalScore.getD 0)

/-- The comparator `(a, b) => b.score - a.score` of `rerankWithHuggingFace`,
as the relation "`a` may precede `b`". -/
def scoreDescLe (a b : RerankedResult) : Prop := b.score ≤ a.score

instance : DecidableRel scoreDescLe := fun a b =>
  inferInstanceAs (Decidable (b.score ≤ a.score))

/-- Model of `RerankerService.rerankWithHuggingFace`, with each document paired with
the payload its (sequential) scoring call produced: score every document,
keep `id`/`originalScore`, stable-sort descending by score and truncate to
`topK`.  (The source collects the scores in an array and maps with
`scores[idx] ?? 0`; the index is always in range, so this is the direct
per-document map.) -/
def rerankWithHuggingFace (docs : List (RerankerDocument × HFJson)) (topK : ℕ) :
    List RerankedResult :=
  let reranked := docs.map fun p => RerankedResult.mk p.1.id (hfScore p.1 p.2) p.1.originalScore
  (reranked.insertionSort scoreDescLe).take topK

/-! ## Reranking stage of search (`search.ts`, `SearchEngine.applyReranking`) -/

/-- The comparator of `applyReranking`'s re-sort, as the relation "`a` may
precede `b`": when both candidates carry a reranker score they compare those,
otherwise both sides fall back to the fusion (`rrfScore`) comparison. -/
def rerankLe (a b : RankedResult) : Prop :=
  if a.rerankerScore.isSome ∧ b.rerankerScore.isSome then
    b.rerankerScore.getD 0 ≤ a.rerankerScore.getD 0
  else b.rrfScore ≤ a.rrfScore

instance : DecidableRel rerankLe := fun a b => by
  unfold rerankLe; infer_instance

/-- The tail of `SearchEngine.applyReranking` (after the reranker call):
`rerankerScoreMap = new Map(reranked.map(r => [r.id, r.score]))`, attach
`rerankerScore` to every candidate via the map, and stable-sort with the
comparator above.  `reranked` is passed in as the id/score list the reranker
returned. -/
def applyReranking (rankedResults : List RankedResult)
    (reranked : List (String × ℚ)) : List RankedResult :=
  let updatedResults := rankedResults.map fun r =>
    { r with rerankerScore := pairLookup reranked r.changeId }
  updatedResults.insertionSort rerankLe

/-! ## FTS query preparation (`search.ts`, `SearchEngine.prepareFTSQuery`) -/

/-- The characters stripped by `prepareFTSQuery`'s
`replace(/['"*()^-]/g, ' ')`. -/
def isFTSSpecial (c : Char) : Bool :=
  c ∈ ['\'', '"', '*', '(', ')', '^', '-']

/-- JS `.trim().split(/\s+/)` of a character list: its maximal non-whitespace
runs.  (`splitOnP` cuts at every whitespace character; discarding the empty
pieces merges separator runs and drops the leading/trailing empties `trim`
would have removed, including the lone empty token JS produces for an
all-whitespace string.) -/
def splitWsRuns (l : List Char) : List (List Char) :=
  (l.splitOnP fun c => c.isWhitespace).filter fun t => t ≠ []

/-- Model of `SearchEngine.prepareFTSQuery`: blank out FTS special characters, keep
whitespace-separated tokens of length `> 1`, quote each as a prefix term,
join with `" OR "`; an empty join (JS falsy `''`) returns the raw query. -/
def prepareFTSQuery (query : String) : String :=
  let replaced := query.data.map fun c => if isFTSSpecial c then ' ' else c
  let terms := (splitWsRuns replaced).filter fun t => 1 < t.length
  let joined := String.intercalate " OR "
    (terms.map fun t => "\"" ++ String.mk t ++ "\"*")
  if joined = "" then query else joined

/-! ## Time expressions (`utils/index.ts`, `parseTimeExpression`)

The regexes involved are matched against the lowercased query (`/i` flag).
Literal patterns reduce to substring tests; `this\s*week`-style patterns and
the `(\d+)\s*units?\s*ago` patterns are scanned position by position,
leftmost match first, with maximal munch for `\d+`/`\s*` (safe here because
each repeated class is disjoint from the character that must follow it). -/

/-- JS `/lit/i.test(cs)`: the lowercased literal occurs as an infix. -/
def containsPat (w : String) (cs : List Char) : Bool :=
  decide (w.data <:+: cs)

/-- Match `w1\s*w2` at the head of `cs`. -/
def wordsAt (w1 w2 : List Char) (cs : List Char) : Bool :=
  w1.isPrefixOf cs && w2.isPrefixOf ((cs.drop w1.length).dropWhile Char.isWhitespace)

/-- Search `w1\s*w2` anywhere in `cs` (leftmost first). -/
def scanWords (w1 w2 : List Char) : List Char → Bool
  | [] => wordsAt w1 w2 []
  | l@(_ :: cs) => wordsAt w1 w2 l || scanWords w1 w2 cs

/-- Digits of a `(\d+)` capture, via `parseInt(-, 10)`. -/
def digitsToNat (l : List Char) : ℕ :=
  l.foldl (fun n c => 10 * n + (c.toNat - '0'.toNat)) 0

/-- Match `(\d+)\s*unit[s]?\s*ago` at the head of `cs`, returning the parsed
capture.  The optional plural `s` is consumed greedily; since `s` is neither
whitespace nor the start of `ago`, no backtracking case is lost. -/
def numUnitAt (unit : List Char) (cs : List Char) : Option ℕ :=
  let digits := cs.takeWhile Char.isDigit
  if digits = [] then none
  else
    let rest0 := (cs.drop digits.length).dropWhile Char.isWhitespace
    if unit.isPrefixOf rest0 then
      let rest1 := rest0.drop unit.length
      let rest2 := if rest1.head? = some 's' then rest1.drop 1 else rest1
      let rest3 := rest2.dropWhile Char.isWhitespace
      if ("ago".data).isPrefixOf rest3 then some (digitsToNat digits) else none
    else none

/-- Search `(\d+)\s*unit[s]?\s*ago` anywhere in `cs`, leftmost match first. -/
def scanNumUnit (unit : List Char) : List Char → Option ℕ
  | [] => numUnitAt unit []
  | l@(_ :: cs) => (numUnitAt unit l).orElse fun _ => scanNumUnit unit cs

/-- Model of `parseTimeExpression`: try the patterns in source order (named ranges
before numeric ranges), returning the handler result of the first match.
`now` stands for `Date.now()`. -/
def parseTimeExpression (now : ℤ) (expr : String) : Option TimeRange :=
  let day : ℤ := 24 * 60 * 60 * 1000
  let week : ℤ := 7 * day
  let month : ℤ := 30 * day
  let cs := expr.data.map Char.toLower
  if containsPat "today" cs then some ⟨now - day, now⟩
  else if containsPat "yesterday" cs then some ⟨now - 2 * day, now - day⟩
  else if scanWords "this".data "week".data cs then some ⟨now - week, now⟩
  else if scanWords "last".data "week".data cs then some ⟨now - 2 * week, now - week⟩
  else if scanWords "this".data "month".data cs then some ⟨now - month, now⟩
  else if scanWords "last".data "month".data cs then some ⟨now - 2 * month, now - month⟩
  else
    match scanNumUnit "hour".data cs with
    | some h => some ⟨now - (h : ℤ) * (60 * 60 * 1000), now⟩
    | none =>
      match scanNumUnit "day".data cs with
      | some d => some ⟨now - (d : ℤ) * day, now⟩
      | none =>
        match scanNumUnit "week".data cs with
        | some w => some ⟨now - (w : ℤ) * week, now⟩
        | none => none

/-! ## File patterns (`utils/index.ts`, `extractFilePatterns`) -/

/-- A character of the `[^\s,]+` token class. -/
def isTokenChar (c : Char) : Bool :=
  !c.isWhitespace && c ≠ ','

/-- Try one keyword alternative of
`/(?:in|from|file[s]?)\s+([^\s,]+(?:\.[a-z]+)?)/i` at the head of `cs`:
case-insensitive keyword, then `\s+`, then a maximal `[^\s,]+` run (the
optional `(?:\.[a-z]+)?` tail can never extend a maximal run, its characters
already belong to the class).  Returns the matched text (original casing) and
the remainder after it. -/
def fileKeywordAt (kw : List Char) (cs : List Char) : Option (List Char × List Char) :=
  if (cs.take kw.length).map Char.toLower = kw then
    let rest := cs.drop kw.length
    let ws := rest.takeWhile Char.isWhitespace
    if ws = [] then none
    else
      let rest2 := rest.drop ws.length
      let tok := rest2.takeWhile isTokenChar
      if tok = [] then none
      else some (cs.take kw.length ++ ws ++ tok, rest2.drop tok.length)
  else none

/-- The alternation `in|from|file[s]?` in source order, with the optional `s`
tried greedily. -/
def fileMatchAt (cs : List Char) : Option (List Char × List Char) :=
  ((fileKeywordAt "in".data cs).orElse fun _ =>
    (fileKeywordAt "from".data cs).orElse fun _ =>
      (fileKeywordAt "files".data cs).orElse fun _ =>
        fileKeywordAt "file".data cs)

/-- The global (`/g`) scan of `query.match(...)`: collect non-overlapping
matches left to right, resuming after each match.  Every step consumes at
least one character, so fuel `cs.length` never runs out. -/
def scanFileMatches : ℕ → List Char → List (List Char)
  | 0, _ => []
  | _ + 1, [] => []
  | fuel + 1, c :: cs =>
    match fileMatchAt (c :: cs) with
    | some (m, rest) => m :: scanFileMatches fuel rest
    | none => scanFileMatches fuel cs

/-- The `languageKeywords` table, in `Object.entries` (insertion) order. -/
def languageKeywords : List (String × String) :=
  [("typescript", "**/*.ts"), ("javascript", "**/*.js"), ("python", "**/*.py"),
   ("java", "**/*.java"), ("rust", "**/*.rs"), ("go", "**/*.go"),
   ("ruby", "**/*.rb"), ("php", "**/*.php"), ("css", "**/*.css"),
   ("html", "**/*.html")]

/-- JS `[...new Set(patterns)]`: first occurrences, in order. -/
def dedupFirst : List String → List String
  | [] => []
  | s :: rest => s :: (dedupFirst rest).filter fun t => t ≠ s

/-- Model of `extractFilePatterns`: suffix globs from the `in/from/file` phrase
matches (each matched text split on `/\s+/`, last part kept when there are at
least two), then language-keyword globs, then `Set` deduplication. -/
def extractFilePatterns (query : String) : List String :=
  let fileMatch := scanFileMatches query.data.length query.data
  let patterns1 := fileMatch.foldl (fun acc m =>
    let parts := splitWsRuns m
    if 1 < parts.length then
      acc ++ ["**/" ++ String.mk (parts.getLast?.getD []) ++ "*"]
    else acc) []
  let lq := query.data.map Char.toLower
  let patterns2 := languageKeywords.foldl (fun acc p =>
    if decide (p.1.data <:+: lq) then acc ++ [p.2] else acc) patterns1
  dedupFirst patterns2

/-! ## Filter enrichment (`search.ts`, `SearchEngine.enrichFilters`) -/

/-- Model of `SearchEngine.enrichFilters`: start from the explicit filters, attach a
parsed time range only when none is present, and append extracted file
patterns to any existing ones.  `now` stands for `Date.now()`. -/
def enrichFilters (now : ℤ) (query : String) (filters : Option SearchFilters) :
    SearchFilters :=
  let enriched : SearchFilters := filters.getD ⟨none, none⟩
  let enriched :=
    match parseTimeExpression now query, enriched.timeRange with
    | some tr, none => { enriched with timeRange := some tr }
    | _, _ => enriched
  let filePatterns := extractFilePatterns query
  if 0 < filePatterns.length then
    { enriched with filePatterns := some ((enriched.filePatterns.getD []) ++ filePatterns) }
  else enriched

/-! ## findSimilar (`search.ts`, `SearchEngine.findSimilar`) -/

/-- A vector-store record as read by `findSimilar`. -/
structure VectorRecord where
  changeId : String
  vector : List ℚ
deriving DecidableEq, Repr

/-- Model of `SearchEngine.findSimilar`: a missing change record or a missing embedding
is a thrown error (`Except.error`); otherwise a nearest-neighbor lookup over
`topK + 1` hits, the reference excluded, hydrated against the metadata
store. -/
def findSimilar (getChange : String → Option ChangeRecord)
    (getVectorByChangeId : String → Option VectorRecord)
    (vectorSearchFn : List ℚ → ℕ → List VectorSearchResult)
    (changeId : String) (topK : ℕ) : Except String (List SearchResult) :=
  match getChange changeId with
  | none => .error ("Change not found: " ++ changeId)
  | some _ =>
    match getVectorByChangeId changeId with
    | none => .error ("No embedding found for change: " ++ changeId)
    | some vectorRecord =>
      let similar := vectorSearchFn vectorRecord.vector (topK + 1)
      let filtered := similar.filter fun r => r.changeId ≠ changeId
      let results := (filtered.take topK).filterMap fun r =>
        (getChange r.changeId).map fun c => SearchResult.mk c r.score (some r.score)
      .ok results

/-! ## Characterizations of the fusion loops, used in statements and proofs -/

/-- The list of entries the vector loop writes when all vector ids are
distinct, starting at 0-based index `n`. -/
def vEntries (vw k : ℚ) (nv : String → ℚ) :
    ℕ → List VectorSearchResult → List RankedResult
  | _, [] => []
  | n, r :: rs => vEntry vw k nv n r :: vEntries vw k nv (n + 1) rs

/-- The first keyword result carrying a given id, with its 0-based index. -/
def kIdx : List (ChangeRecord × ℚ) → String → Option (ℕ × (ChangeRecord × ℚ))
  | [], _ => none
  | c :: cs, id =>
    if c.1.id = id then some (0, c)
    else (kIdx cs id).map fun p => (p.1 + 1, p.2)

/-- What the keyword loop does to an entry already in the score map: the
in-place update for its (unique) keyword occurrence, if any. -/
def kExpectedUpd (kw k : ℚ) (nk : String → ℚ) (n : ℕ)
    (krs : List (ChangeRecord × ℚ)) (e : RankedResult) : RankedResult :=
  match kIdx krs e.changeId with
  | some (j, c) => kUpdate kw k nk (n + j) c e
  | none => e

/-- The entries the keyword loop appends for ids not among `seen` (the keys
already in the score map). -/
def kAppends (kw k : ℚ) (nk : String → ℚ) :
    ℕ → List String → List (ChangeRecord × ℚ) → List RankedResult
  | _, _, [] => []
  | n, seen, c :: cs =>
    if c.1.id ∈ seen then kAppends kw k nk (n + 1) seen cs
    else kEntry kw k nk n c :: kAppends kw k nk (n + 1) seen cs

/-! ## Definitions modelled from the spec's words, for refutation only -/

/-- Modelled from the spec: the "effective score (reranker score where
available, else original)" that §4.5 claims the post-rerank list is sorted
by. -/
def specEffectiveScore (r : RankedResult) : ℚ :=
  r.rerankerScore.getD r.rrfScore

/-- Modelled from the spec: "a `{start,end}` spanning exactly the previous
calendar day" (UTC day boundaries; `Int.fdiv` floors toward the epoch). -/
def specPreviousCalendarDay (now : ℤ) : TimeRange :=
  let day : ℤ := 24 * 60 * 60 * 1000
  ⟨(now.fdiv day - 1) * day, now.fdiv day * day⟩

/-! # Lemmas about the score-map model -/

theorem mem_mapSet {m : List RankedResult} {e x : RankedResult}
    (hx : x ∈ mapSet m e) : x = e ∨ x ∈ m := by
  induction m with
  | nil => simpa [mapSet] using hx
  | cons y ys ih =>
    by_cases h : y.changeId = e.changeId
    · simp only [mapSet, if_pos h, List.mem_cons] at hx
      rcases hx with h1 | h1
      · exact Or.inl h1
      · exact Or.inr (List.mem_cons_of_mem _ h1)
    · simp only [mapSet, if_neg h, List.mem_cons] at hx
      rcases hx with h1 | h1
      · exact Or.inr (by simp [h1])
      · rcases ih h1 with h2 | h2
        · exact Or.inl h2
        · exact Or.inr (List.mem_cons_of_mem _ h2)

theorem mapSet_of_not_mem {m : List RankedResult} {e : RankedResult}
    (h : e.changeId ∉ mapKeys m) : mapSet m e = m ++ [e] := by
  induction m with
  | nil => rfl
  | cons y ys ih =>
    have hy : y.changeId ≠ e.changeId := by
      intro hc
      exact h (by simp [mapKeys, hc])
    have hys : e.changeId ∉ mapKeys ys := by
      intro hc
      exact h (by simp [mapKeys] at hc ⊢; exact Or.inr hc)
    simp [mapSet, hy, ih hys]

theorem mapKeys_append (m₁ m₂ : List RankedResult) :
    mapKeys (m₁ ++ m₂) = mapKeys m₁ ++ mapKeys m₂ := by
  simp [mapKeys]

theorem mapGet_eq_none_iff {m : List RankedResult} {id : String} :
    mapGet m id = none ↔ id ∉ mapKeys m := by
  simp only [mapGet, List.find?_eq_none, mapKeys, List.mem_map, decide_eq_true_eq]
  constructor
  · rintro h ⟨x, hx, hxid⟩
    exact h x hx hxid
  · intro h x hx hxid
    exact h ⟨x, hx, hxid⟩

theorem mapGet_mem {m : List RankedResult} {id : String} {e : RankedResult}
    (h : mapGet m id = some e) : e ∈ m :=
  List.mem_of_find?_eq_some h

theorem mapGet_changeId {m : List RankedResult} {id : String} {e : RankedResult}
    (h : mapGet m id = some e) : e.changeId = id := by
  have := List.find?_some h
  simpa using this

theorem mapKeys_cons (y : RankedResult) (ys : List RankedResult) :
    mapKeys (y :: ys) = y.changeId :: mapKeys ys := rfl

theorem mapKeys_nodup_head {y : RankedResult} {ys : List RankedResult}
    (hnd : (mapKeys (y :: ys)).Nodup) : y.changeId ∉ mapKeys ys :=
  (List.nodup_cons.mp (by rwa [mapKeys_cons] at hnd)).1

theorem mapKeys_nodup_tail {y : RankedResult} {ys : List RankedResult}
    (hnd : (mapKeys (y :: ys)).Nodup) : (mapKeys ys).Nodup :=
  (List.nodup_cons.mp (by rwa [mapKeys_cons] at hnd)).2

theorem mapGet_eq_of_mem {m : List RankedResult} {x : RankedResult}
    (hnd : (mapKeys m).Nodup) (hx : x ∈ m) :
    mapGet m x.changeId = some x := by
  induction m with
  | nil => simp at hx
  | cons y ys ih =>
    rcases List.mem_cons.mp hx with rfl | hx'
    · simp [mapGet]
    · have hy : ¬ y.changeId = x.changeId := by
        intro hc
        have hmem : x.changeId ∈ mapKeys ys := by
          simp only [mapKeys, List.mem_map]
          exact ⟨x, hx', rfl⟩
        have hnotin := mapKeys_nodup_head hnd
        rw [hc] at hnotin
        exact hnotin hmem
      simp [mapGet, hy] at ih ⊢
      exact ih (mapKeys_nodup_tail hnd) hx'

theorem mapSet_eq_map_of_get {m : List RankedResult} {id : String}
    {e₀ e : RankedResult} (hnd : (mapKeys m).Nodup)
    (hg : mapGet m id = some e₀) (he : e.changeId = id) :
    mapSet m e = m.map fun x => if x.changeId = id then e else x := by
  induction m with
  | nil => simp [mapGet] at hg
  | cons y ys ih =>
    have hnd1 := mapKeys_nodup_head hnd
    have hnd' := mapKeys_nodup_tail hnd
    by_cases h : y.changeId = id
    · have hmap : ys.map (fun x => if x.changeId = id then e else x) = ys := by
        rw [List.map_congr_left, List.map_id]
        intro a ha
        have hne : a.changeId ≠ id := by
          intro hc
          apply hnd1
          rw [h]
          simp only [mapKeys, List.mem_map]
          exact ⟨a, ha, hc⟩
        simp [hne]
      simp [mapSet, h.trans he.symm, hmap, h, he]
    · have hg' : mapGet ys id = some e₀ := by
        simpa [mapGet, h] using hg
      have hne : y.changeId ≠ e.changeId := fun hc => h (hc.trans he)
      simp [mapSet, hne, h, ih hnd' hg']

/-! # Characterization of the vector loop -/

theorem vEntry_changeId (vw k : ℚ) (nv : String → ℚ) (i : ℕ)
    (r : VectorSearchResult) : (vEntry vw k nv i r).changeId = r.changeId := rfl

theorem mapKeys_vEntries (vw k : ℚ) (nv : String → ℚ) :
    ∀ (vrs : List VectorSearchResult) (n : ℕ),
      mapKeys (vEntries vw k nv n vrs) = vrs.map fun r => r.changeId
  | [], _ => rfl
  | r :: rs, n => by
    rw [vEntries, mapKeys_cons, mapKeys_vEntries vw k nv rs (n + 1),
      vEntry_changeId, List.map_cons]

theorem processVector_eq (vw k : ℚ) (nv : String → ℚ) :
    ∀ (vrs : List VectorSearchResult) (n : ℕ) (m : List RankedResult),
      (∀ r ∈ vrs, r.changeId ∉ mapKeys m) →
      (vrs.map fun r => r.changeId).Nodup →
      processVector vw k nv n vrs m = m ++ vEntries vw k nv n vrs
  | [], n, m, _, _ => by simp [processVector, vEntries]
  | r :: rs, n, m, hdisj, hnd => by
    have hfresh : (vEntry vw k nv n r).changeId ∉ mapKeys m :=
      hdisj r (List.mem_cons_self _ _)
    have hstep : mapSet m (vEntry vw k nv n r) = m ++ [vEntry vw k nv n r] :=
      mapSet_of_not_mem hfresh
    rw [List.map_cons] at hnd
    have hnd' : (rs.map fun x => x.changeId).Nodup := (List.nodup_cons.mp hnd).2
    have hhead : r.changeId ∉ rs.map fun x => x.changeId := (List.nodup_cons.mp hnd).1
    have hdisj' : ∀ x ∈ rs, x.changeId ∉ mapKeys (m ++ [vEntry vw k nv n r]) := by
      intro x hx
      rw [mapKeys_append]
      intro hc
      rcases List.mem_append.mp hc with hc | hc
      · exact hdisj x (List.mem_cons_of_mem _ hx) hc
      · apply hhead
        have : x.changeId = r.changeId := by
          simpa [mapKeys, vEntry_changeId] using hc
        rw [← this]
        exact List.mem_map_of_mem _ hx
    rw [processVector, hstep,
      processVector_eq vw k nv rs (n + 1) _ hdisj' hnd']
    simp [vEntries]

theorem vEntries_mem_of_get (vw k : ℚ) (nv : String → ℚ) :
    ∀ (vrs : List VectorSearchResult) (n i : ℕ) (r : VectorSearchResult),
      vrs.get? i = some r →
      vEntry vw k nv (n + i) r ∈ vEntries vw k nv n vrs
  | [], _, i, r, h => by simp at h
  | v :: vs, n, 0, r, h => by
    simp only [List.get?_cons_zero, Option.some.injEq] at h
    subst h
    simp [vEntries]
  | v :: vs, n, i + 1, r, h => by
    simp only [List.get?_cons_succ] at h
    have := vEntries_mem_of_get vw k nv vs (n + 1) i r h
    have harith : n + 1 + i = n + (i + 1) := by omega
    rw [harith] at this
    exact List.mem_cons_of_mem _ this

/-! # Characterization of the keyword loop -/

theorem kEntry_changeId (kw k : ℚ) (nk : String → ℚ) (j : ℕ)
    (c : ChangeRecord × ℚ) : (kEntry kw k nk j c).changeId = c.1.id := rfl

theorem kUpdate_changeId (kw k : ℚ) (nk : String → ℚ) (j : ℕ)
    (c : ChangeRecord × ℚ) (e : RankedResult) :
    (kUpdate kw k nk j c e).changeId = e.changeId := rfl

theorem kIdx_eq_none_iff {krs : List (ChangeRecord × ℚ)} {id : String} :
    kIdx krs id = none ↔ id ∉ krs.map fun c => c.1.id := by
  induction krs with
  | nil => simp [kIdx]
  | cons c cs ih =>
    by_cases h : c.1.id = id
    · simp [kIdx, h]
    · simp [kIdx, h, ih, Ne.symm h]

theorem kIdx_cons_ne {c : ChangeRecord × ℚ} {cs : List (ChangeRecord × ℚ)}
    {id : String} (h : c.1.id ≠ id) :
    kIdx (c :: cs) id = (kIdx cs id).map fun p => (p.1 + 1, p.2) := by
  simp [kIdx, h]

theorem kIdx_of_get :
    ∀ {krs : List (ChangeRecord × ℚ)} {j : ℕ} {c : ChangeRecord × ℚ},
      (krs.map fun x => x.1.id).Nodup → krs.get? j = some c →
      kIdx krs c.1.id = some (j, c)
  | [], j, c, _, h => by simp at h
  | x :: xs, 0, c, hnd, h => by
    simp only [List.get?_cons_zero, Option.some.injEq] at h
    subst h
    simp [kIdx]
  | x :: xs, j + 1, c, hnd, h => by
    simp only [List.get?_cons_succ] at h
    have hmem : c ∈ xs := List.get?_mem h
    rw [List.map_cons] at hnd
    have hx : x.1.id ≠ c.1.id := by
      intro hc
      have h1 : x.1.id ∉ xs.map fun y => y.1.id := (List.nodup_cons.mp hnd).1
      apply h1
      rw [hc]
      exact List.mem_map_of_mem _ hmem
    have hnd' : (xs.map fun y => y.1.id).Nodup := (List.nodup_cons.mp hnd).2
    rw [kIdx_cons_ne hx, kIdx_of_get hnd' h]
    rfl

theorem kAppends_seen_snoc (kw k : ℚ) (nk : String → ℚ) {id : String} :
    ∀ (cs : List (ChangeRecord × ℚ)) (n : ℕ) (seen : List String),
      id ∉ cs.map (fun c => c.1.id) →
      kAppends kw k nk n (seen ++ [id]) cs = kAppends kw k nk n seen cs
  | [], _, _, _ => rfl
  | c :: cs, n, seen, h => by
    have hne : c.1.id ≠ id := by
      intro hc
      exact h (by simp [← hc])
    have h' : id ∉ cs.map fun x => x.1.id := by
      intro hc
      exact h (List.mem_cons_of_mem _ hc)
    have hmem : (c.1.id ∈ seen ++ [id]) ↔ c.1.id ∈ seen := by
      simp [hne]
    by_cases hc : c.1.id ∈ seen
    · simp only [kAppends, if_pos hc, if_pos (hmem.mpr hc)]
      exact kAppends_seen_snoc kw k nk cs (n + 1) seen h'
    · simp only [kAppends, if_neg hc, if_neg (fun hx => hc (hmem.mp hx))]
      rw [kAppends_seen_snoc kw k nk cs (n + 1) seen h']

theorem kAppends_mem_of_get (kw k : ℚ) (nk : String → ℚ) :
    ∀ {krs : List (ChangeRecord × ℚ)} (n : ℕ) (seen : List String)
      {j : ℕ} {c : ChangeRecord × ℚ},
      krs.get? j = some c → c.1.id ∉ seen →
      kEntry kw k nk (n + j) c ∈ kAppends kw k nk n seen krs
  | [], _, _, j, c, h, _ => by simp at h
  | x :: xs, n, seen, 0, c, h, hns => by
    simp only [List.get?_cons_zero, Option.some.injEq] at h
    subst h
    simp [kAppends, hns]
  | x :: xs, n, seen, j + 1, c, h, hns => by
    simp only [List.get?_cons_succ] at h
    have := kAppends_mem_of_get kw k nk (n + 1) seen h hns
    have harith : n + 1 + j = n + (j + 1) := by omega
    rw [harith] at this
    by_cases hx : x.1.id ∈ seen
    · simpa [kAppends, hx] using this
    · simp only [kAppends, if_neg hx]
      exact List.mem_cons_of_mem _ this

theorem kExpectedUpd_shift (kw k : ℚ) (nk : String → ℚ) {a : RankedResult}
    {c : ChangeRecord × ℚ} (cs : List (ChangeRecord × ℚ)) (n : ℕ)
    (ha : a.changeId ≠ c.1.id) :
    kExpectedUpd kw k nk (n + 1) cs a = kExpectedUpd kw k nk n (c :: cs) a := by
  rcases hq : kIdx cs a.changeId with _ | ⟨j, c'⟩
  · simp [kExpectedUpd, kIdx_cons_ne (Ne.symm ha), hq]
  · simp only [kExpectedUpd, kIdx_cons_ne (Ne.symm ha), hq, Option.map_some']
    have harith : n + 1 + j = n + (j + 1) := by omega
    rw [harith]

theorem processKeyword_eq (kw k : ℚ) (nk : String → ℚ) :
    ∀ (krs : List (ChangeRecord × ℚ)) (n : ℕ) (m : List RankedResult),
      (krs.map fun c => c.1.id).Nodup →
      (mapKeys m).Nodup →
      processKeyword kw k nk n krs m =
        m.map (kExpectedUpd kw k nk n krs) ++ kAppends kw k nk n (mapKeys m) krs
  | [], n, m, _, _ => by
    have hmap : m.map (kExpectedUpd kw k nk n []) = m.map id :=
      List.map_congr_left fun a _ => by simp [kExpectedUpd, kIdx]
    rw [processKeyword, hmap, List.map_id, kAppends, List.append_nil]
  | c :: cs, n, m, hknd, hmnd => by
    rw [List.map_cons] at hknd
    have hkhd : c.1.id ∉ cs.map fun x => x.1.id := (List.nodup_cons.mp hknd).1
    have hknd' : (cs.map fun x => x.1.id).Nodup := (List.nodup_cons.mp hknd).2
    by_cases hmem : c.1.id ∈ mapKeys m
    · obtain ⟨x, hxm, hxid⟩ : ∃ x ∈ m, x.changeId = c.1.id := by
        simpa only [mapKeys, List.mem_map] using hmem
      have hget : mapGet m c.1.id = some x := by
        rw [← hxid]
        exact mapGet_eq_of_mem hmnd hxm
      have hupd : (kUpdate kw k nk n c x).changeId = c.1.id := by
        rw [kUpdate_changeId]
        exact hxid
      have hset : mapSet m (kUpdate kw k nk n c x) =
          m.map fun y => if y.changeId = c.1.id then kUpdate kw k nk n c x else y :=
        mapSet_eq_map_of_get hmnd hget hupd
      have hkeys :
          mapKeys (m.map fun y =>
            if y.changeId = c.1.id then kUpdate kw k nk n c x else y) = mapKeys m := by
        simp only [mapKeys, List.map_map]
        apply List.map_congr_left
        intro a _
        by_cases ha : a.changeId = c.1.id <;>
          simp [ha, kUpdate_changeId, Function.comp, hxid]
      have hrec := processKeyword_eq kw k nk cs (n + 1)
        (m.map fun y => if y.changeId = c.1.id then kUpdate kw k nk n c x else y)
        hknd' (by rw [hkeys]; exact hmnd)
      simp only [processKeyword, hget, hset, hrec, hkeys, List.map_map]
      congr 1
      · apply List.map_congr_left
        intro a ham
        by_cases ha : a.changeId = c.1.id
        · have hax : a = x := by
            have h2 := mapGet_eq_of_mem hmnd ham
            rw [ha, hget] at h2
            exact (Option.some.inj h2).symm
          subst hax
          have hnone : kIdx cs c.1.id = none := kIdx_eq_none_iff.mpr hkhd
          simp [Function.comp, kExpectedUpd, kIdx, ha, hxid, kUpdate_changeId, hnone]
        · simp only [Function.comp, if_neg ha]
          exact kExpectedUpd_shift kw k nk cs n ha
      · simp only [kAppends, if_pos hmem]
    · have hget : mapGet m c.1.id = none := mapGet_eq_none_iff.mpr hmem
      have hfresh : (kEntry kw k nk n c).changeId ∉ mapKeys m := by
        rw [kEntry_changeId]
        exact hmem
      have hset : mapSet m (kEntry kw k nk n c) = m ++ [kEntry kw k nk n c] :=
        mapSet_of_not_mem hfresh
      have hkeys : mapKeys (m ++ [kEntry kw k nk n c]) = mapKeys m ++ [c.1.id] := by
        rw [mapKeys_append]
        rfl
      have hmnd' : (mapKeys (m ++ [kEntry kw k nk n c])).Nodup := by
        rw [hkeys]
        simp [List.nodup_append, hmnd, hmem]
      have hrec := processKeyword_eq kw k nk cs (n + 1) (m ++ [kEntry kw k nk n c])
        hknd' hmnd'
      have hself : kExpectedUpd kw k nk (n + 1) cs (kEntry kw k nk n c) =
          kEntry kw k nk n c := by
        simp [kExpectedUpd, kEntry_changeId, kIdx_eq_none_iff.mpr hkhd]
      have hmpart : m.map (kExpectedUpd kw k nk (n + 1) cs) =
          m.map (kExpectedUpd kw k nk n (c :: cs)) := by
        apply List.map_congr_left
        intro a ham
        have ha : a.changeId ≠ c.1.id := by
          intro hc
          apply hmem
          rw [← hc]
          exact List.mem_map_of_mem _ ham
        exact kExpectedUpd_shift kw k nk cs n ha
      simp only [processKeyword, hget, hset, hrec, hkeys,
        kAppends_seen_snoc kw k nk cs (n + 1) (mapKeys m) hkhd,
        List.map_append, List.map_cons, List.map_nil, hself, hmpart]
      simp only [kAppends, if_neg hmem]
      simp [List.append_assoc]

/-! # Facts about the boost pass -/

theorem boostEntry_changeId (e : RankedResult) :
    (boostEntry e).changeId = e.changeId := by
  unfold boostEntry
  split <;> rfl

theorem boostEntry_vectorRank (e : RankedResult) :
    (boostEntry e).vectorRank = e.vectorRank := by
  unfold boostEntry
  split <;> rfl

theorem boostEntry_of_no_keyword {e : RankedResult} (h : e.keywordRank = none) :
    boostEntry e = e := by
  simp [boostEntry, h]

theorem boostEntry_of_no_vector {e : RankedResult} (h : e.vectorRank = none) :
    boostEntry e = e := by
  simp [boostEntry, h]

theorem boostEntry_of_both {e : RankedResult} (hv : e.vectorRank.isSome)
    (hk : e.keywordRank.isSome) :
    boostEntry e = { e with
      rrfScore := e.rrfScore *
        (1 + 0.2 * min 1 ((e.normalizedVectorScore.getD 0) *
          (e.normalizedKeywordScore.getD 0))) } := by
  simp [boostEntry, hv, hk]

/-! # Folded minima and maxima (`Math.min(...scores)` / `Math.max(...scores)`) -/

theorem foldl_min_le_init : ∀ (l : List ℚ) (a : ℚ), l.foldl min a ≤ a
  | [], _ => le_refl _
  | x :: xs, a => le_trans (foldl_min_le_init xs (min a x)) (min_le_left a x)

theorem foldl_min_le_of_mem :
    ∀ (l : List ℚ) (a x : ℚ), x ∈ l → l.foldl min a ≤ x
  | [], _, _, h => by simp at h
  | y :: ys, a, x, h => by
    rcases List.mem_cons.mp h with rfl | h'
    · exact le_trans (foldl_min_le_init ys (min a x)) (min_le_right a x)
    · exact foldl_min_le_of_mem ys (min a y) x h'

theorem le_foldl_max_init : ∀ (l : List ℚ) (a : ℚ), a ≤ l.foldl max a
  | [], _ => le_refl _
  | x :: xs, a => le_trans (le_max_left a x) (le_foldl_max_init xs (max a x))

theorem le_foldl_max_of_mem :
    ∀ (l : List ℚ) (a x : ℚ), x ∈ l → x ≤ l.foldl max a
  | [], _, _, h => by simp at h
  | y :: ys, a, x, h => by
    rcases List.mem_cons.mp h with rfl | h'
    · exact le_trans (le_max_right a x) (le_foldl_max_init ys (max a x))
    · exact le_foldl_max_of_mem ys (max a y) x h'

theorem foldl_min_all_eq : ∀ (l : List ℚ) (a : ℚ), (∀ x ∈ l, x = a) → l.foldl min a = a
  | [], _, _ => rfl
  | y :: ys, a, h => by
    have hy : y = a := h y (List.mem_cons_self _ _)
    rw [List.foldl_cons, hy, min_self]
    exact foldl_min_all_eq ys a fun x hx => h x (List.mem_cons_of_mem _ hx)

theorem foldl_max_all_eq : ∀ (l : List ℚ) (a : ℚ), (∀ x ∈ l, x = a) → l.foldl max a = a
  | [], _, _ => rfl
  | y :: ys, a, h => by
    have hy : y = a := h y (List.mem_cons_self _ _)
    rw [List.foldl_cons, hy, max_self]
    exact foldl_max_all_eq ys a fun x hx => h x (List.mem_cons_of_mem _ hx)

/-! # Facts about the normalizer -/

theorem normalizeScores_min_eq (r : String × ℚ) (rs : List (String × ℚ)) (t : ℚ) :
    (normalizeScores (r :: rs) t).min = ((r :: rs).map Prod.snd).foldl min r.2 := rfl

theorem normalizeScores_max_eq (r : String × ℚ) (rs : List (String × ℚ)) (t : ℚ) :
    (normalizeScores (r :: rs) t).max = ((r :: rs).map Prod.snd).foldl max r.2 := rfl

theorem normalizeScores_results_eq (r : String × ℚ) (rs : List (String × ℚ)) (t : ℚ) :
    (normalizeScores (r :: rs) t).results =
      ((r :: rs).map fun p =>
        NormEntry.mk p.1 p.2
          (if 0 < (normalizeScores (r :: rs) t).max - (normalizeScores (r :: rs) t).min
           then (p.2 - (normalizeScores (r :: rs) t).min) /
             ((normalizeScores (r :: rs) t).max - (normalizeScores (r :: rs) t).min)
           else 1)).filter fun e => t ≤ e.normalizedScore := rfl

theorem normalizeScores_mem_cases {r : String × ℚ} {rs : List (String × ℚ)}
    {t : ℚ} {e : NormEntry} (he : e ∈ (normalizeScores (r :: rs) t).results) :
    ∃ p ∈ r :: rs, e =
      NormEntry.mk p.1 p.2
        (if 0 < (normalizeScores (r :: rs) t).max - (normalizeScores (r :: rs) t).min
         then (p.2 - (normalizeScores (r :: rs) t).min) /
           ((normalizeScores (r :: rs) t).max - (normalizeScores (r :: rs) t).min)
         else 1) := by
  rw [normalizeScores_results_eq] at he
  have he' := List.mem_of_mem_filter he
  obtain ⟨p, hp, hpe⟩ := List.mem_map.mp he'
  exact ⟨p, hp, hpe.symm⟩

theorem normalizeScores_min_le {r : String × ℚ} {rs : List (String × ℚ)} {t : ℚ}
    {p : String × ℚ} (hp : p ∈ r :: rs) :
    (normalizeScores (r :: rs) t).min ≤ p.2 := by
  rw [normalizeScores_min_eq]
  exact foldl_min_le_of_mem _ _ _ (List.mem_map_of_mem _ hp)

theorem normalizeScores_le_max {r : String × ℚ} {rs : List (String × ℚ)} {t : ℚ}
    {p : String × ℚ} (hp : p ∈ r :: rs) :
    p.2 ≤ (normalizeScores (r :: rs) t).max := by
  rw [normalizeScores_max_eq]
  exact le_foldl_max_of_mem _ _ _ (List.mem_map_of_mem _ hp)

theorem normalizeScores_bounds {results : List (String × ℚ)} {t : ℚ}
    {e : NormEntry} (he : e ∈ (normalizeScores results t).results) :
    0 ≤ e.normalizedScore ∧ e.normalizedScore ≤ 1 := by
  cases results with
  | nil => simp [normalizeScores] at he
  | cons r rs =>
    obtain ⟨p, hp, rfl⟩ := normalizeScores_mem_cases he
    by_cases hr :
        0 < (normalizeScores (r :: rs) t).max - (normalizeScores (r :: rs) t).min
    · have h1 := normalizeScores_min_le (t := t) hp
      have h2 := normalizeScores_le_max (t := t) hp
      simp only [if_pos hr]
      constructor
      · exact div_nonneg (by linarith) (le_of_lt hr)
      · rw [div_le_one hr]
        linarith
    · simp only [if_neg hr]
      norm_num

/-! # Facts about the normalized-score lookup -/

theorem pairLookup_mem {l : List (String × ℚ)} {id : String} {v : ℚ}
    (h : pairLookup l id = some v) : (id, v) ∈ l := by
  unfold pairLookup at h
  cases hf : l.reverse.find? fun q => q.1 = id with
  | none => rw [hf] at h; simp at h
  | some p =>
    rw [hf] at h
    simp only [Option.map_some', Option.some.injEq] at h
    have hp1 : p.1 = id := by simpa using List.find?_some hf
    have hpm : p ∈ l := List.mem_reverse.mp (List.mem_of_find?_eq_some hf)
    have : p = (id, v) := by
      cases p
      simp_all
    rwa [this] at hpm

theorem pairLookup_eq_none {l : List (String × ℚ)} {id : String}
    (h : id ∉ l.map Prod.fst) : pairLookup l id = none := by
  unfold pairLookup
  rw [List.find?_eq_none.mpr]
  · rfl
  · intro p hp
    simp only [decide_eq_true_eq]
    intro hc
    apply h
    rw [← hc]
    exact List.mem_map_of_mem _ (List.mem_reverse.mp hp)

theorem normLookup_nonneg_of_bounds (ns : NormalizedScores)
    (hb : ∀ e ∈ ns.results, 0 ≤ e.normalizedScore ∧ e.normalizedScore ≤ 1)
    (id : String) : 0 ≤ normLookup ns id ∧ normLookup ns id ≤ 1 := by
  unfold normLookup
  cases h : pairLookup (ns.results.map fun e => (e.id, e.normalizedScore)) id with
  | none => norm_num
  | some v =>
    simp only [Option.getD_some]
    obtain ⟨e, he, hev⟩ := List.mem_map.mp (pairLookup_mem h)
    have hv : e.normalizedScore = v := congrArg Prod.snd hev
    rw [← hv]
    exact hb e he

theorem normLookup_eq_zero {ns : NormalizedScores} {id : String}
    (h : id ∉ ns.results.map NormEntry.id) : normLookup ns id = 0 := by
  unfold normLookup
  rw [pairLookup_eq_none]
  · rfl
  · simpa using h

/-! # The fused list before sorting -/

/-- Under distinct ids per leg, `reciprocalRankFusion` is the stable sort of
the boosted image of the characterized score map. -/
theorem reciprocalRankFusion_eq (vrs : List VectorSearchResult)
    (krs : List (ChangeRecord × ℚ)) (params : HybridSearchParams)
    (nV nK : NormalizedScores)
    (hv : (vrs.map fun r => r.changeId).Nodup)
    (hk : (krs.map fun c => c.1.id).Nodup) :
    reciprocalRankFusion vrs krs params nV nK =
      ((((vEntries params.vectorWeight SEARCH_DEFAULTS.RRF_K (normLookup nV) 0 vrs).map
          (kExpectedUpd params.keywordWeight SEARCH_DEFAULTS.RRF_K (normLookup nK) 0 krs))
        ++ kAppends params.keywordWeight SEARCH_DEFAULTS.RRF_K (normLookup nK) 0
            (vrs.map fun r => r.changeId) krs).map boostEntry).insertionSort rrfDescLe := by
  unfold reciprocalRankFusion
  dsimp only
  rw [processVector_eq params.vectorWeight SEARCH_DEFAULTS.RRF_K (normLookup nV) vrs 0 []
    (by intro r _; simp [mapKeys]) hv]
  rw [List.nil_append]
  rw [processKeyword_eq params.keywordWeight SEARCH_DEFAULTS.RRF_K (normLookup nK) krs 0 _
    hk (by rw [mapKeys_vEntries]; exact hv)]
  rw [mapKeys_vEntries]

/-! # Stable-sort facts -/

theorem orderedInsert_rel_congr {α : Type} {r s : α → α → Prop}
    [DecidableRel r] [DecidableRel s] (a : α) :
    ∀ l : List α, (∀ c ∈ l, (r a c ↔ s a c)) →
      l.orderedInsert r a = l.orderedInsert s a
  | [], _ => rfl
  | b :: l, h => by
    by_cases hr : r a b
    · rw [List.orderedInsert, List.orderedInsert, if_pos hr,
        if_pos ((h b (List.mem_cons_self _ _)).mp hr)]
    · rw [List.orderedInsert, List.orderedInsert, if_neg hr,
        if_neg (fun hs => hr ((h b (List.mem_cons_self _ _)).mpr hs)),
        orderedInsert_rel_congr a l fun c hc => h c (List.mem_cons_of_mem _ hc)]

theorem insertionSort_rel_congr {α : Type} {r s : α → α → Prop}
    [DecidableRel r] [DecidableRel s] :
    ∀ l : List α, (∀ a ∈ l, ∀ b ∈ l, (r a b ↔ s a b)) →
      l.insertionSort r = l.insertionSort s
  | [], _ => rfl
  | b :: l, h => by
    rw [List.insertionSort, List.insertionSort,
      insertionSort_rel_congr l fun a ha b' hb =>
        h a (List.mem_cons_of_mem _ ha) b' (List.mem_cons_of_mem _ hb)]
    apply orderedInsert_rel_congr
    intro c hc
    have hcl : c ∈ l := (List.mem_insertionSort s).mp hc
    exact h b (List.mem_cons_self _ _) c (List.mem_cons_of_mem _ hcl)

theorem chain'_orderedInsert {α : Type} {r : α → α → Prop} [DecidableRel r]
    (htot : ∀ a b, r a b ∨ r b a) (a : α) :
    ∀ l : List α, List.Chain' r l → List.Chain' r (l.orderedInsert r a)
  | [], _ => by simp
  | b :: l, hc => by
    by_cases hr : r a b
    · rw [List.orderedInsert, if_pos hr]
      exact hc.cons hr
    · rw [List.orderedInsert, if_neg hr]
      have hra : r b a := (htot a b).resolve_left hr
      have hrec := chain'_orderedInsert htot a l hc.tail
      rw [List.chain'_cons']
      refine ⟨?_, hrec⟩
      intro y hy
      cases l with
      | nil =>
        simp only [List.orderedInsert, List.head?_cons, Option.mem_def,
          Option.some.injEq] at hy
        rw [← hy]
        exact hra
      | cons c l' =>
        by_cases hac : r a c
        · rw [List.orderedInsert, if_pos hac] at hy
          simp only [List.head?_cons, Option.mem_def, Option.some.injEq] at hy
          rw [← hy]
          exact hra
        · rw [List.orderedInsert, if_neg hac] at hy
          simp only [List.head?_cons, Option.mem_def, Option.some.injEq] at hy
          rw [← hy]
          exact (List.chain'_cons.mp hc).1

theorem chain'_insertionSort {α : Type} {r : α → α → Prop} [DecidableRel r]
    (htot : ∀ a b, r a b ∨ r b a) :
    ∀ l : List α, List.Chain' r (l.insertionSort r)
  | [] => by simp
  | b :: l => by
    rw [List.insertionSort]
    exact chain'_orderedInsert htot b _ (chain'_insertionSort htot l)

/-! # Invariant of the keyword loop (for the degraded vector leg) -/

theorem processKeyword_inv (kw k : ℚ) (nk : String → ℚ) (kids : List String) :
    ∀ (krs : List (ChangeRecord × ℚ)) (n : ℕ) (m : List RankedResult),
      (∀ c ∈ krs, c.1.id ∈ kids) →
      (∀ x ∈ m, x.vectorRank = none ∧ x.changeId ∈ kids) →
      ∀ x ∈ processKeyword kw k nk n krs m,
        x.vectorRank = none ∧ x.changeId ∈ kids
  | [], _, m, _, hm => by
    intro x hx
    rw [processKeyword] at hx
    exact hm x hx
  | c :: cs, n, m, hks, hm => by
    rw [processKeyword]
    cases hg : mapGet m c.1.id with
    | some e₀ =>
      refine processKeyword_inv kw k nk kids cs (n + 1) _
        (fun c' hc' => hks c' (List.mem_cons_of_mem _ hc')) ?_
      intro y hy
      rcases mem_mapSet hy with rfl | hym
      · have he₀ := hm e₀ (mapGet_mem hg)
        exact ⟨he₀.1, he₀.2⟩
      · exact hm y hym
    | none =>
      refine processKeyword_inv kw k nk kids cs (n + 1) _
        (fun c' hc' => hks c' (List.mem_cons_of_mem _ hc')) ?_
      intro y hy
      rcases mem_mapSet hy with rfl | hym
      · exact ⟨rfl, hks c (List.mem_cons_self _ _)⟩
      · exact hm y hym

/-! # Claim theorems -/

/-- C4: for every non-empty input, every entry of `normalizeScores`'s output
has `normalizedScore ∈ [0,1]`, equal to `(score - min) / (max - min)` whenever
`min < max`; and when all raw scores are equal every output entry has
`normalizedScore = 1`. -/
theorem normalizeScores_bounds_formula (results : List (String × ℚ)) (t : ℚ)
    (hne : results ≠ []) :
    ∀ e ∈ (normalizeScores results t).results,
      (0 ≤ e.normalizedScore ∧ e.normalizedScore ≤ 1) ∧
      ((normalizeScores results t).min < (normalizeScores results t).max →
        e.normalizedScore =
          (e.score - (normalizeScores results t).min) /
            ((normalizeScores results t).max - (normalizeScores results t).min)) ∧
      ((∀ p ∈ results, ∀ q ∈ results, p.2 = q.2) → e.normalizedScore = 1) := by
  cases results with
  | nil => exact absurd rfl hne
  | cons r rs =>
    intro e he
    refine ⟨normalizeScores_bounds he, ?_, ?_⟩
    · intro hlt
      obtain ⟨p, _, rfl⟩ := normalizeScores_mem_cases he
      rw [if_pos (sub_pos.mpr hlt)]
    · intro hall
      obtain ⟨p, _, rfl⟩ := normalizeScores_mem_cases he
      have hscores : ∀ x ∈ (r :: rs).map Prod.snd, x = r.2 := by
        intro x hx
        obtain ⟨q, hq, rfl⟩ := List.mem_map.mp hx
        exact hall q hq r (List.mem_cons_self _ _)
      have hmin : (normalizeScores (r :: rs) t).min = r.2 := by
        rw [normalizeScores_min_eq]
        exact foldl_min_all_eq _ _ hscores
      have hmax : (normalizeScores (r :: rs) t).max = r.2 := by
        rw [normalizeScores_max_eq]
        exact foldl_max_all_eq _ _ hscores
      rw [if_neg]
      rw [hmin, hmax]
      simp

/-- Witness for C4 at a concrete two-element input. -/
theorem normalizeScores_bounds_formula_witness :
    0 ≤ (NormEntry.mk "a" 2 0).normalizedScore ∧
      (NormEntry.mk "a" 2 0).normalizedScore ≤ 1 := by
  have hev : normalizeScores [("a", (2 : ℚ)), ("b", 4)] 0 =
      ⟨[⟨"a", 2, 0⟩, ⟨"b", 4, 1⟩], 2, 4⟩ := by
    unfold normalizeScores
    norm_num [min_def, max_def]
  have hmem : (NormEntry.mk "a" 2 0) ∈ (normalizeScores [("a", 2), ("b", 4)] 0).results := by
    rw [hev]
    simp
  exact (normalizeScores_bounds_formula [("a", 2), ("b", 4)] 0 (by simp)
    (NormEntry.mk "a" 2 0) hmem).1

/-- C9: `findSimilar` on an id with no metadata record rejects with a
"Change not found" error, which is never the successful empty-list outcome. -/
theorem findSimilar_missing_change (getChange : String → Option ChangeRecord)
    (getVectorByChangeId : String → Option VectorRecord)
    (vectorSearchFn : List ℚ → ℕ → List VectorSearchResult)
    (changeId : String) (topK : ℕ) (h : getChange changeId = none) :
    findSimilar getChange getVectorByChangeId vectorSearchFn changeId topK =
      Except.error ("Change not found: " ++ changeId) ∧
    ∀ l : List SearchResult,
      findSimilar getChange getVectorByChangeId vectorSearchFn changeId topK ≠
        Except.ok l := by
  have heq : findSimilar getChange getVectorByChangeId vectorSearchFn changeId topK =
      Except.error ("Change not found: " ++ changeId) := by
    unfold findSimilar
    rw [h]
  exact ⟨heq, fun l hl => by rw [heq] at hl; exact Except.noConfusion hl⟩

/-- Witness for C9: a store with no records at all. -/
theorem findSimilar_missing_change_witness :
    findSimilar (fun _ => none) (fun _ => none) (fun _ _ => []) "nonexistent-id" 5 =
      Except.error ("Change not found: " ++ "nonexistent-id") :=
  (findSimilar_missing_change (fun _ => none) (fun _ => none) (fun _ _ => [])
    "nonexistent-id" 5 rfl).1

/-- C10: when every whitespace-separated token of the cleaned query has
length at most 1, `prepareFTSQuery` returns the raw query unchanged. -/
theorem prepareFTSQuery_degenerate (query : String)
    (h : ∀ t ∈ splitWsRuns (query.data.map fun c => if isFTSSpecial c then ' ' else c),
      t.length ≤ 1) :
    prepareFTSQuery query = query := by
  unfold prepareFTSQuery
  dsimp only
  have hterms : ∀ t ∈ splitWsRuns (query.data.map fun c => if isFTSSpecial c then ' ' else c),
      ¬ (1 < t.length) := fun t ht => Nat.not_lt.mpr (h t ht)
  rw [List.filter_eq_nil_iff.mpr (by simpa using hterms)]
  rfl

/-- Witness for C10: a query whose tokens all have length 1 after cleaning,
returned verbatim with its unsafe characters. -/
theorem prepareFTSQuery_degenerate_witness :
    prepareFTSQuery "a *b- (c)" = "a *b- (c)" :=
  prepareFTSQuery_degenerate "a *b- (c)" (by decide)

/-- C5: when the vector leg's body throws, the leg degrades to `[]`, no
exception escapes (the ranking is the same value as for an empty vector leg),
and every fused candidate comes from the lexical leg alone. -/
theorem search_vector_leg_degrades (err : String)
    (keywordResults : List (ChangeRecord × ℚ)) (params : HybridSearchParams) :
    searchRanked (Except.error err) keywordResults params =
      searchRanked (Except.ok []) keywordResults params ∧
    ∀ e ∈ searchRanked (Except.error err) keywordResults params,
      e.vectorRank = none ∧ e.changeId ∈ keywordResults.map fun c => c.1.id := by
  refine ⟨rfl, ?_⟩
  intro e he
  unfold searchRanked vectorSearch reciprocalRankFusion at he
  dsimp only at he
  rw [List.mem_insertionSort] at he
  obtain ⟨y, hy, rfl⟩ := List.mem_map.mp he
  have hinv := processKeyword_inv params.keywordWeight SEARCH_DEFAULTS.RRF_K
    (normLookup (normalizeScores (keywordResults.map fun r => (r.1.id, r.2))
      SEARCH_DEFAULTS.MIN_KEYWORD_SCORE))
    (keywordResults.map fun c => c.1.id) keywordResults 0 []
    (fun c hc => List.mem_map_of_mem _ hc) (by intro x hx; simp at hx) y hy
  exact ⟨by rw [boostEntry_vectorRank]; exact hinv.1,
    by rw [boostEntry_changeId]; exact hinv.2⟩

/-- C7: a document whose reranker payload yields no numeric score keeps its
`originalScore`, documents with parseable payloads keep the reranker's
score, and (when `topK` covers the input) no document is dropped. -/
theorem reranker_unparseable_fallback (docs₁ docs₂ : List (RerankerDocument × HFJson))
    (d : RerankerDocument) (p : HFJson) (o : ℚ) (topK : ℕ)
    (hp : extractScoreFromResult p = none)
    (ho : d.originalScore = some o)
    (hlen : (docs₁ ++ (d, p) :: docs₂).length ≤ topK) :
    (RerankedResult.mk d.id o (some o)) ∈
      rerankWithHuggingFace (docs₁ ++ (d, p) :: docs₂) topK ∧
    (∀ q ∈ docs₁ ++ docs₂, ∀ s, extractScoreFromResult q.2 = some s →
      RerankedResult.mk q.1.id s q.1.originalScore ∈
        rerankWithHuggingFace (docs₁ ++ (d, p) :: docs₂) topK) ∧
    (rerankWithHuggingFace (docs₁ ++ (d, p) :: docs₂) topK).length =
      (docs₁ ++ (d, p) :: docs₂).length := by
  unfold rerankWithHuggingFace
  dsimp only
  have hlsorted :
      (((docs₁ ++ (d, p) :: docs₂).map fun q =>
        RerankedResult.mk q.1.id (hfScore q.1 q.2) q.1.originalScore).insertionSort
          scoreDescLe).length = (docs₁ ++ (d, p) :: docs₂).length := by
    rw [List.length_insertionSort, List.length_map]
  have htake :
      (((docs₁ ++ (d, p) :: docs₂).map fun q =>
        RerankedResult.mk q.1.id (hfScore q.1 q.2) q.1.originalScore).insertionSort
          scoreDescLe).take topK =
      ((docs₁ ++ (d, p) :: docs₂).map fun q =>
        RerankedResult.mk q.1.id (hfScore q.1 q.2) q.1.originalScore).insertionSort
          scoreDescLe :=
    List.take_of_length_le (by rw [hlsorted]; exact hlen)
  rw [htake]
  refine ⟨?_, ?_, by rw [hlsorted]⟩
  · rw [List.mem_insertionSort]
    have hd : hfScore d p = o := by
      unfold hfScore
      rw [hp, ho]
      rfl
    have : RerankedResult.mk d.id o (some o) =
        RerankedResult.mk d.id (hfScore d p) d.originalScore := by
      rw [hd, ho]
    rw [this]
    exact List.mem_map_of_mem _
      (List.mem_append_right _ (List.mem_cons_self _ _))
  · intro q hq s hs
    rw [List.mem_insertionSort]
    have hqs : hfScore q.1 q.2 = s := by
      unfold hfScore
      rw [hs]
      rfl
    have hqmem : q ∈ docs₁ ++ (d, p) :: docs₂ := by
      rcases List.mem_append.mp hq with h | h
      · exact List.mem_append_left _ h
      · exact List.mem_append_right _ (List.mem_cons_of_mem _ h)
    have : RerankedResult.mk q.1.id s q.1.originalScore =
        RerankedResult.mk q.1.id (hfScore q.1 q.2) q.1.originalScore := by
      rw [hqs]
    rw [this]
    exact List.mem_map_of_mem _ hqmem

/-- Witness for C7: three documents, the middle one with an unparseable
(empty-array) payload. -/
theorem reranker_unparseable_fallback_witness :
    (RerankedResult.mk "d2" 7 (some 7)) ∈
      rerankWithHuggingFace
        [(⟨"d1", "x", some 5⟩, HFJson.num (9 / 10)),
         (⟨"d2", "y", some 7⟩, HFJson.arr []),
         (⟨"d3", "z", some 1⟩, HFJson.num (1 / 2))] 10 :=
  (reranker_unparseable_fallback
    [(⟨"d1", "x", some 5⟩, HFJson.num (9 / 10))]
    [(⟨"d3", "z", some 1⟩, HFJson.num (1 / 2))]
    ⟨"d2", "y", some 7⟩ (HFJson.arr []) 7 10 rfl rfl (by simp)).1

/-- Helper: a vector-only candidate reaches the fused list with exactly its
vector-leg RRF contribution. -/
theorem fusion_vector_only_mem (vrs : List VectorSearchResult)
    (krs : List (ChangeRecord × ℚ)) (params : HybridSearchParams)
    (nV nK : NormalizedScores)
    (hv : (vrs.map fun r => r.changeId).Nodup)
    (hk : (krs.map fun c => c.1.id).Nodup)
    (i : ℕ) (r : VectorSearchResult) (hget : vrs.get? i = some r)
    (hnk : r.changeId ∉ krs.map fun c => c.1.id) :
    ∃ e ∈ reciprocalRankFusion vrs krs params nV nK,
      e.changeId = r.changeId ∧ e.vectorRank = some (i + 1) ∧
      e.keywordRank = none ∧
      e.normalizedVectorScore = some (normLookup nV r.changeId) ∧
      e.rrfScore = params.vectorWeight * (1 / (60 + ((i : ℚ) + 1))) := by
  rw [reciprocalRankFusion_eq vrs krs params nV nK hv hk]
  have h1 : vEntry params.vectorWeight SEARCH_DEFAULTS.RRF_K (normLookup nV) i r ∈
      vEntries params.vectorWeight SEARCH_DEFAULTS.RRF_K (normLookup nV) 0 vrs := by
    simpa using
      vEntries_mem_of_get params.vectorWeight SEARCH_DEFAULTS.RRF_K (normLookup nV)
        vrs 0 i r hget
  have h2 : kExpectedUpd params.keywordWeight SEARCH_DEFAULTS.RRF_K (normLookup nK) 0 krs
      (vEntry params.vectorWeight SEARCH_DEFAULTS.RRF_K (normLookup nV) i r) =
      vEntry params.vectorWeight SEARCH_DEFAULTS.RRF_K (normLookup nV) i r := by
    simp [kExpectedUpd, vEntry_changeId, kIdx_eq_none_iff.mpr hnk]
  refine ⟨vEntry params.vectorWeight SEARCH_DEFAULTS.RRF_K (normLookup nV) i r,
    ?_, rfl, rfl, rfl, rfl, ?_⟩
  · rw [List.mem_insertionSort]
    have h3 := List.mem_map_of_mem
      (kExpectedUpd params.keywordWeight SEARCH_DEFAULTS.RRF_K (normLookup nK) 0 krs) h1
    rw [h2] at h3
    have h4 := List.mem_append_left
      (kAppends params.keywordWeight SEARCH_DEFAULTS.RRF_K (normLookup nK) 0
        (vrs.map fun x => x.changeId) krs) h3
    have h5 := List.mem_map_of_mem boostEntry h4
    rwa [boostEntry_of_no_keyword rfl] at h5
  · show params.vectorWeight * (1 / (SEARCH_DEFAULTS.RRF_K + ((i + 1 : ℕ) : ℚ))) = _
    push_cast
    norm_num [SEARCH_DEFAULTS.RRF_K]

/-- Helper: a keyword-only candidate reaches the fused list with exactly its
keyword-leg RRF contribution. -/
theorem fusion_keyword_only_mem (vrs : List VectorSearchResult)
    (krs : List (ChangeRecord × ℚ)) (params : HybridSearchParams)
    (nV nK : NormalizedScores)
    (hv : (vrs.map fun r => r.changeId).Nodup)
    (hk : (krs.map fun c => c.1.id).Nodup)
    (j : ℕ) (c : ChangeRecord × ℚ) (hget : krs.get? j = some c)
    (hnv : c.1.id ∉ vrs.map fun r => r.changeId) :
    ∃ e ∈ reciprocalRankFusion vrs krs params nV nK,
      e.changeId = c.1.id ∧ e.keywordRank = some (j + 1) ∧
      e.vectorRank = none ∧
      e.rrfScore = params.keywordWeight * (1 / (60 + ((j : ℚ) + 1))) := by
  rw [reciprocalRankFusion_eq vrs krs params nV nK hv hk]
  have h1 : kEntry params.keywordWeight SEARCH_DEFAULTS.RRF_K (normLookup nK) j c ∈
      kAppends params.keywordWeight SEARCH_DEFAULTS.RRF_K (normLookup nK) 0
        (vrs.map fun x => x.changeId) krs := by
    simpa using
      kAppends_mem_of_get params.keywordWeight SEARCH_DEFAULTS.RRF_K (normLookup nK)
        0 (vrs.map fun x => x.changeId) hget hnv
  refine ⟨kEntry params.keywordWeight SEARCH_DEFAULTS.RRF_K (normLookup nK) j c,
    ?_, rfl, rfl, rfl, ?_⟩
  · rw [List.mem_insertionSort]
    have h4 := List.mem_append_right
      ((vEntries params.vectorWeight SEARCH_DEFAULTS.RRF_K (normLookup nV) 0 vrs).map
        (kExpectedUpd params.keywordWeight SEARCH_DEFAULTS.RRF_K (normLookup nK) 0 krs)) h1
    have h5 := List.mem_map_of_mem boostEntry h4
    rwa [boostEntry_of_no_vector rfl] at h5
  · show params.keywordWeight * (1 / (SEARCH_DEFAULTS.RRF_K + ((j + 1 : ℕ) : ℚ))) = _
    push_cast
    norm_num [SEARCH_DEFAULTS.RRF_K]

/-- C3: with `k = 60`, a vector result at 1-based rank `i+1` that appears in
no keyword result contributes exactly `vectorWeight * (1 / (k + rank))`, and
that is its whole fusion score; symmetrically for a keyword-only result with
`keywordWeight`. -/
theorem rrf_contribution_formula (vrs : List VectorSearchResult)
    (krs : List (ChangeRecord × ℚ)) (params : HybridSearchParams)
    (nV nK : NormalizedScores)
    (hv : (vrs.map fun r => r.changeId).Nodup)
    (hk : (krs.map fun c => c.1.id).Nodup) :
    (∀ i r, vrs.get? i = some r →
      r.changeId ∉ krs.map (fun c => c.1.id) →
      ∃ e ∈ reciprocalRankFusion vrs krs params nV nK,
        e.changeId = r.changeId ∧ e.vectorRank = some (i + 1) ∧
        e.keywordRank = none ∧
        e.rrfScore = params.vectorWeight * (1 / (60 + ((i : ℚ) + 1)))) ∧
    (∀ j c, krs.get? j = some c →
      c.1.id ∉ vrs.map (fun r => r.changeId) →
      ∃ e ∈ reciprocalRankFusion vrs krs params nV nK,
        e.changeId = c.1.id ∧ e.keywordRank = some (j + 1) ∧
        e.vectorRank = none ∧
        e.rrfScore = params.keywordWeight * (1 / (60 + ((j : ℚ) + 1)))) := by
  constructor
  · intro i r hget hnk
    obtain ⟨e, hmem, h₁, h₂, h₃, _, h₄⟩ :=
      fusion_vector_only_mem vrs krs params nV nK hv hk i r hget hnk
    exact ⟨e, hmem, h₁, h₂, h₃, h₄⟩
  · intro j c hget hnv
    exact fusion_keyword_only_mem vrs krs params nV nK hv hk j c hget hnv

/-- Witness for C3: one vector-only and one keyword-only candidate. -/
theorem rrf_contribution_formula_witness :
    ∃ e ∈ reciprocalRankFusion [⟨"a", 1⟩]
      [(⟨"b", "", [], "", none, 0, ""⟩, 1)] ⟨0.6, 0.4, 50⟩ ⟨[], 0, 0⟩ ⟨[], 0, 0⟩,
      e.changeId = "a" ∧ e.vectorRank = some (0 + 1) ∧ e.keywordRank = none ∧
      e.rrfScore = (0.6 : ℚ) * (1 / (60 + ((0 : ℚ) + 1))) :=
  (rrf_contribution_formula [⟨"a", 1⟩] [(⟨"b", "", [], "", none, 0, ""⟩, 1)]
    ⟨0.6, 0.4, 50⟩ ⟨[], 0, 0⟩ ⟨[], 0, 0⟩ (by simp) (by simp)).1 0 ⟨"a", 1⟩ rfl (by simp)

theorem boostEntry_keywordRank (e : RankedResult) :
    (boostEntry e).keywordRank = e.keywordRank := by
  unfold boostEntry
  split <;> rfl

theorem boostEntry_normalizedVectorScore (e : RankedResult) :
    (boostEntry e).normalizedVectorScore = e.normalizedVectorScore := by
  unfold boostEntry
  split <;> rfl

theorem boostEntry_normalizedKeywordScore (e : RankedResult) :
    (boostEntry e).normalizedKeywordScore = e.normalizedKeywordScore := by
  unfold boostEntry
  split <;> rfl

/-- Unfolding lemma: `searchRanked` on a successful vector leg is fusion over the two
normalizer outputs. -/
theorem searchRanked_ok_eq (vrs : List VectorSearchResult)
    (krs : List (ChangeRecord × ℚ)) (params : HybridSearchParams) :
    searchRanked (Except.ok vrs) krs params =
      reciprocalRankFusion vrs krs params
        (normalizeScores (vrs.map fun r => (r.changeId, r.score))
          SEARCH_DEFAULTS.MIN_VECTOR_SCORE)
        (normalizeScores (krs.map fun r => (r.1.id, r.2))
          SEARCH_DEFAULTS.MIN_KEYWORD_SCORE) := rfl

/-- Helper: a dual-leg candidate reaches the fused list carrying both ranks,
both normalized scores, and the boosted sum of its two RRF contributions. -/
theorem fusion_dual_leg_mem (vrs : List VectorSearchResult)
    (krs : List (ChangeRecord × ℚ)) (params : HybridSearchParams)
    (nV nK : NormalizedScores)
    (hv : (vrs.map fun r => r.changeId).Nodup)
    (hk : (krs.map fun c => c.1.id).Nodup)
    (i : ℕ) (r : VectorSearchResult) (j : ℕ) (c : ChangeRecord × ℚ)
    (hgv : vrs.get? i = some r) (hgk : krs.get? j = some c)
    (hid : c.1.id = r.changeId) :
    ∃ e ∈ reciprocalRankFusion vrs krs params nV nK,
      e.changeId = r.changeId ∧ e.vectorRank = some (i + 1) ∧
      e.keywordRank = some (j + 1) ∧
      e.normalizedVectorScore = some (normLookup nV r.changeId) ∧
      e.normalizedKeywordScore = some (normLookup nK c.1.id) ∧
      e.rrfScore =
        (params.vectorWeight * (1 / (60 + ((i : ℚ) + 1))) +
          params.keywordWeight * (1 / (60 + ((j : ℚ) + 1)))) *
          (1 + 0.2 * min 1
            (normLookup nV r.changeId * normLookup nK c.1.id)) := by
  rw [reciprocalRankFusion_eq vrs krs params nV nK hv hk]
  have h1 : vEntry params.vectorWeight SEARCH_DEFAULTS.RRF_K (normLookup nV) i r ∈
      vEntries params.vectorWeight SEARCH_DEFAULTS.RRF_K (normLookup nV) 0 vrs := by
    simpa using
      vEntries_mem_of_get params.vectorWeight SEARCH_DEFAULTS.RRF_K (normLookup nV)
        vrs 0 i r hgv
  have hkidx : kIdx krs r.changeId = some (j, c) := by
    rw [← hid]
    exact kIdx_of_get hk hgk
  have h2 : kExpectedUpd params.keywordWeight SEARCH_DEFAULTS.RRF_K (normLookup nK) 0 krs
      (vEntry params.vectorWeight SEARCH_DEFAULTS.RRF_K (normLookup nV) i r) =
      kUpdate params.keywordWeight SEARCH_DEFAULTS.RRF_K (normLookup nK) j c
        (vEntry params.vectorWeight SEARCH_DEFAULTS.RRF_K (normLookup nV) i r) := by
    simp [kExpectedUpd, vEntry_changeId, hkidx]
  have h3 := List.mem_map_of_mem
    (kExpectedUpd params.keywordWeight SEARCH_DEFAULTS.RRF_K (normLookup nK) 0 krs) h1
  rw [h2] at h3
  have h4 := List.mem_append_left
    (kAppends params.keywordWeight SEARCH_DEFAULTS.RRF_K (normLookup nK) 0
      (vrs.map fun x => x.changeId) krs) h3
  have h5 := List.mem_map_of_mem boostEntry h4
  refine ⟨boostEntry (kUpdate params.keywordWeight SEARCH_DEFAULTS.RRF_K (normLookup nK) j c
      (vEntry params.vectorWeight SEARCH_DEFAULTS.RRF_K (normLookup nV) i r)),
    (List.mem_insertionSort rrfDescLe).mpr h5, ?_, ?_, ?_, ?_, ?_, ?_⟩
  · rw [boostEntry_changeId, kUpdate_changeId, vEntry_changeId]
  · rw [boostEntry_vectorRank]
    rfl
  · rw [boostEntry_keywordRank]
    rfl
  · rw [boostEntry_normalizedVectorScore]
    rfl
  · rw [boostEntry_normalizedKeywordScore]
    rfl
  · rw [boostEntry_of_both (by rfl) (by rfl)]
    show (params.vectorWeight * (1 / (SEARCH_DEFAULTS.RRF_K + ((i + 1 : ℕ) : ℚ))) +
        params.keywordWeight * (1 / (SEARCH_DEFAULTS.RRF_K + ((j + 1 : ℕ) : ℚ)))) *
        (1 + 0.2 * min 1 (normLookup nV r.changeId * normLookup nK c.1.id)) = _
    push_cast
    norm_num [SEARCH_DEFAULTS.RRF_K]

/-- C2: a candidate present in both legs has its fused score multiplied by
exactly `1 + 0.2 * min 1 (normalizedVectorScore * normalizedKeywordScore)`, a
factor that always lies in `[1, 1.2]`; one-leg candidates keep their bare
contribution (no boost). -/
theorem overlap_boost_bound (vrs : List VectorSearchResult)
    (krs : List (ChangeRecord × ℚ)) (params : HybridSearchParams)
    (hv : (vrs.map fun r => r.changeId).Nodup)
    (hk : (krs.map fun c => c.1.id).Nodup) :
    (∀ i r j c, vrs.get? i = some r → krs.get? j = some c →
      c.1.id = r.changeId →
      ∃ e ∈ searchRanked (Except.ok vrs) krs params,
        e.changeId = r.changeId ∧ e.vectorRank = some (i + 1) ∧
        e.keywordRank = some (j + 1) ∧
        (1 : ℚ) ≤ 1 + 0.2 * min 1
          (e.normalizedVectorScore.getD 0 * e.normalizedKeywordScore.getD 0) ∧
        1 + 0.2 * min 1
          (e.normalizedVectorScore.getD 0 * e.normalizedKeywordScore.getD 0) ≤ 1.2 ∧
        e.rrfScore =
          (params.vectorWeight * (1 / (60 + ((i : ℚ) + 1))) +
            params.keywordWeight * (1 / (60 + ((j : ℚ) + 1)))) *
            (1 + 0.2 * min 1
              (e.normalizedVectorScore.getD 0 * e.normalizedKeywordScore.getD 0))) ∧
    (∀ i r, vrs.get? i = some r → r.changeId ∉ krs.map (fun c => c.1.id) →
      ∃ e ∈ searchRanked (Except.ok vrs) krs params,
        e.changeId = r.changeId ∧
        e.rrfScore = params.vectorWeight * (1 / (60 + ((i : ℚ) + 1)))) ∧
    (∀ j c, krs.get? j = some c → c.1.id ∉ vrs.map (fun r => r.changeId) →
      ∃ e ∈ searchRanked (Except.ok vrs) krs params,
        e.changeId = c.1.id ∧
        e.rrfScore = params.keywordWeight * (1 / (60 + ((j : ℚ) + 1)))) := by
  refine ⟨?_, ?_, ?_⟩
  · intro i r j c hgv hgk hid
    rw [searchRanked_ok_eq]
    obtain ⟨e, hmem, h₁, h₂, h₃, hnv, hnk2, hscore⟩ :=
      fusion_dual_leg_mem vrs krs params
        (normalizeScores (vrs.map fun x => (x.changeId, x.score))
          SEARCH_DEFAULTS.MIN_VECTOR_SCORE)
        (normalizeScores (krs.map fun x => (x.1.id, x.2))
          SEARCH_DEFAULTS.MIN_KEYWORD_SCORE)
        hv hk i r j c hgv hgk hid
    have hbx := normLookup_nonneg_of_bounds
      (normalizeScores (vrs.map fun x => (x.changeId, x.score))
        SEARCH_DEFAULTS.MIN_VECTOR_SCORE)
      (fun q hq => normalizeScores_bounds hq) r.changeId
    have hby := normLookup_nonneg_of_bounds
      (normalizeScores (krs.map fun x => (x.1.id, x.2))
        SEARCH_DEFAULTS.MIN_KEYWORD_SCORE)
      (fun q hq => normalizeScores_bounds hq) c.1.id
    have hprod : 0 ≤
        normLookup (normalizeScores (vrs.map fun x => (x.changeId, x.score))
          SEARCH_DEFAULTS.MIN_VECTOR_SCORE) r.changeId *
        normLookup (normalizeScores (krs.map fun x => (x.1.id, x.2))
          SEARCH_DEFAULTS.MIN_KEYWORD_SCORE) c.1.id :=
      mul_nonneg hbx.1 hby.1
    have hmin0 : (0 : ℚ) ≤ min 1
        (normLookup (normalizeScores (vrs.map fun x => (x.changeId, x.score))
          SEARCH_DEFAULTS.MIN_VECTOR_SCORE) r.changeId *
        normLookup (normalizeScores (krs.map fun x => (x.1.id, x.2))
          SEARCH_DEFAULTS.MIN_KEYWORD_SCORE) c.1.id) :=
      le_min (by norm_num) hprod
    have hmin1 := min_le_left (1 : ℚ)
        (normLookup (normalizeScores (vrs.map fun x => (x.changeId, x.score))
          SEARCH_DEFAULTS.MIN_VECTOR_SCORE) r.changeId *
        normLookup (normalizeScores (krs.map fun x => (x.1.id, x.2))
          SEARCH_DEFAULTS.MIN_KEYWORD_SCORE) c.1.id)
    refine ⟨e, hmem, h₁, h₂, h₃, ?_, ?_, ?_⟩
    · rw [hnv, hnk2]
      simp only [Option.getD_some]
      linarith
    · rw [hnv, hnk2]
      simp only [Option.getD_some]
      linarith
    · rw [hnv, hnk2]
      simp only [Option.getD_some]
      exact hscore
  · intro i r hget hnk
    rw [searchRanked_ok_eq]
    obtain ⟨e, hmem, h₁, _, _, _, h₄⟩ :=
      fusion_vector_only_mem vrs krs params
        (normalizeScores (vrs.map fun x => (x.changeId, x.score))
          SEARCH_DEFAULTS.MIN_VECTOR_SCORE)
        (normalizeScores (krs.map fun x => (x.1.id, x.2))
          SEARCH_DEFAULTS.MIN_KEYWORD_SCORE)
        hv hk i r hget hnk
    exact ⟨e, hmem, h₁, h₄⟩
  · intro j c hget hnv
    rw [searchRanked_ok_eq]
    obtain ⟨e, hmem, h₁, _, _, h₄⟩ :=
      fusion_keyword_only_mem vrs krs params
        (normalizeScores (vrs.map fun x => (x.changeId, x.score))
          SEARCH_DEFAULTS.MIN_VECTOR_SCORE)
        (normalizeScores (krs.map fun x => (x.1.id, x.2))
          SEARCH_DEFAULTS.MIN_KEYWORD_SCORE)
        hv hk j c hget hnv
    exact ⟨e, hmem, h₁, h₄⟩

/-- Witness for C2: a single candidate present in both legs. -/
theorem overlap_boost_bound_witness :
    ∃ e ∈ searchRanked (Except.ok [⟨"b", 0.5⟩])
      [(⟨"b", "", [], "", none, 0, ""⟩, 1)] ⟨0.6, 0.4, 50⟩,
      e.changeId = "b" ∧ e.vectorRank = some (0 + 1) ∧
      e.keywordRank = some (0 + 1) ∧
      (1 : ℚ) ≤ 1 + 0.2 * min 1
        (e.normalizedVectorScore.getD 0 * e.normalizedKeywordScore.getD 0) ∧
      1 + 0.2 * min 1
        (e.normalizedVectorScore.getD 0 * e.normalizedKeywordScore.getD 0) ≤ 1.2 ∧
      e.rrfScore =
        ((0.6 : ℚ) * (1 / (60 + ((0 : ℚ) + 1))) +
          (0.4 : ℚ) * (1 / (60 + ((0 : ℚ) + 1)))) *
          (1 + 0.2 * min 1
            (e.normalizedVectorScore.getD 0 * e.normalizedKeywordScore.getD 0)) :=
  (overlap_boost_bound [⟨"b", 0.5⟩] [(⟨"b", "", [], "", none, 0, ""⟩, 1)]
    ⟨0.6, 0.4, 50⟩ (by simp) (by simp)).1 0 ⟨"b", 0.5⟩ 0
    (⟨"b", "", [], "", none, 0, ""⟩, 1) rfl rfl rfl

/-- C1 counterexample: with vector scores 1 and 0 (normalized 1 and 0, the
latter below the 0.3 threshold, so dropped by the normalizer) and an empty
lexical leg, the dropped candidate `"b"` still appears in the fused ranking
with the positive vector-leg contribution `0.6 * (1 / 62) = 3 / 310`. -/
theorem below_threshold_cex :
    ((normalizeScores [("a", 1), ("b", 0)]
      SEARCH_DEFAULTS.MIN_VECTOR_SCORE).results.map NormEntry.id) = ["a"] ∧
    ((searchRanked (Except.ok [⟨"a", 1⟩, ⟨"b", 0⟩]) [] ⟨0.6, 0.4, 50⟩).map fun e =>
      (e.changeId, e.vectorRank, e.rrfScore)) =
      [("a", some 1, 3 / 305), ("b", some 2, 3 / 310)] := by
  constructor
  · unfold normalizeScores SEARCH_DEFAULTS.MIN_VECTOR_SCORE
    norm_num [min_def, max_def]
  · unfold searchRanked vectorSearch normalizeScores reciprocalRankFusion
    norm_num [processVector, processKeyword, mapSet, vEntry, boostEntry, rrfDescLe,
      normLookup, pairLookup, SEARCH_DEFAULTS.MIN_VECTOR_SCORE,
      SEARCH_DEFAULTS.MIN_KEYWORD_SCORE, SEARCH_DEFAULTS.RRF_K, min_def, max_def,
      List.insertionSort, List.orderedInsert]

/-- C1 (amended): a vector-leg candidate whose normalized score falls below
the leg's threshold is dropped only from the normalized-score map — its
stored `normalizedVectorScore` becomes `0` — but it still reaches fusion with
its full vector-leg RRF contribution. -/
theorem below_threshold_still_contributes (vrs : List VectorSearchResult)
    (krs : List (ChangeRecord × ℚ)) (params : HybridSearchParams)
    (hv : (vrs.map fun r => r.changeId).Nodup)
    (hk : (krs.map fun c => c.1.id).Nodup)
    (i : ℕ) (r : VectorSearchResult) (hget : vrs.get? i = some r)
    (hnk : r.changeId ∉ krs.map fun c => c.1.id)
    (hdrop : r.changeId ∉ (normalizeScores (vrs.map fun v => (v.changeId, v.score))
      SEARCH_DEFAULTS.MIN_VECTOR_SCORE).results.map NormEntry.id) :
    ∃ e ∈ searchRanked (Except.ok vrs) krs params,
      e.changeId = r.changeId ∧ e.vectorRank = some (i + 1) ∧
      e.normalizedVectorScore = some 0 ∧
      e.rrfScore = params.vectorWeight * (1 / (60 + ((i : ℚ) + 1))) := by
  rw [searchRanked_ok_eq]
  obtain ⟨e, hmem, h₁, h₂, _, hnv, h₅⟩ :=
    fusion_vector_only_mem vrs krs params
      (normalizeScores (vrs.map fun x => (x.changeId, x.score))
        SEARCH_DEFAULTS.MIN_VECTOR_SCORE)
      (normalizeScores (krs.map fun x => (x.1.id, x.2))
        SEARCH_DEFAULTS.MIN_KEYWORD_SCORE)
      hv hk i r hget hnk
  refine ⟨e, hmem, h₁, h₂, ?_, h₅⟩
  rw [hnv, normLookup_eq_zero hdrop]

/-- Witness for the amended C1: the dropped candidate of the counterexample
input indeed carries contribution `0.6 * (1 / 62)` and normalized score 0. -/
theorem below_threshold_still_contributes_witness :
    ∃ e ∈ searchRanked (Except.ok [⟨"a", 1⟩, ⟨"b", 0⟩]) [] ⟨0.6, 0.4, 50⟩,
      e.changeId = "b" ∧ e.vectorRank = some (1 + 1) ∧
      e.normalizedVectorScore = some 0 ∧
      e.rrfScore = (0.6 : ℚ) * (1 / (60 + ((1 : ℚ) + 1))) :=
  below_threshold_still_contributes [⟨"a", 1⟩, ⟨"b", 0⟩] [] ⟨0.6, 0.4, 50⟩
    (by simp) (by simp) 1 ⟨"b", 0⟩ rfl (by simp)
    (by
      unfold normalizeScores SEARCH_DEFAULTS.MIN_VECTOR_SCORE
      norm_num [min_def, max_def]
      decide)

/-- C6 counterexample: candidate `A` has reranker score 10 (effective 10) and
original score 1; candidate `B` has no reranker score and original score 2.
The comparator falls back to comparing the two *original* scores, so `B`
comes first even though its effective score (2) is below `A`'s (10): the
output is not sorted by effective score. -/
theorem rerank_mixed_pair_cex :
    ((applyReranking
      [⟨"A", none, none, none, none, none, none, 1, none⟩,
       ⟨"B", none, none, none, none, none, none, 2, none⟩]
      [("A", 10)]).map fun r => (r.changeId, specEffectiveScore r)) =
      [("B", 2), ("A", 10)] ∧
    ¬ List.Sorted (fun a b => specEffectiveScore b ≤ specEffectiveScore a)
      (applyReranking
        [⟨"A", none, none, none, none, none, none, 1, none⟩,
         ⟨"B", none, none, none, none, none, none, 2, none⟩]
        [("A", 10)]) := by
  have heval : applyReranking
      [⟨"A", none, none, none, none, none, none, 1, none⟩,
       ⟨"B", none, none, none, none, none, none, 2, none⟩] [("A", 10)] =
      [⟨"B", none, none, none, none, none, none, 2, none⟩,
       ⟨"A", none, none, none, none, none, none, 1, some 10⟩] := by decide
  rw [heval]
  constructor
  · decide
  · simp only [List.sorted_cons, specEffectiveScore]
    norm_num

/-- C6 (amended): after the reranker call, the candidate list is re-sorted
with the comparator that orders two candidates by reranker score when both
carry one and by their pre-rerank fusion scores otherwise — so a pair with
exactly one reranker score is ordered by the two original scores.  The output
is a permutation of the score-attached candidates, adjacent elements respect
that comparator, and when every candidate received a reranker score the list
is sorted descending by reranker score. -/
theorem applyReranking_behavior (rankedResults : List RankedResult)
    (reranked : List (String × ℚ)) :
    (applyReranking rankedResults reranked).Perm
      (rankedResults.map fun r =>
        { r with rerankerScore := pairLookup reranked r.changeId }) ∧
    List.Chain' rerankLe (applyReranking rankedResults reranked) ∧
    ((∀ r ∈ rankedResults, (pairLookup reranked r.changeId).isSome) →
      List.Sorted (fun a b => b.rerankerScore.getD 0 ≤ a.rerankerScore.getD 0)
        (applyReranking rankedResults reranked)) := by
  have htot : ∀ a b : RankedResult, rerankLe a b ∨ rerankLe b a := by
    intro a b
    unfold rerankLe
    by_cases h : a.rerankerScore.isSome ∧ b.rerankerScore.isSome
    · rw [if_pos h, if_pos ⟨h.2, h.1⟩]
      exact le_total _ _
    · rw [if_neg h, if_neg fun hc => h ⟨hc.2, hc.1⟩]
      exact le_total _ _
  unfold applyReranking
  dsimp only
  refine ⟨List.perm_insertionSort _ _, chain'_insertionSort htot _, ?_⟩
  intro hall
  haveI : DecidableRel fun a b : RankedResult =>
      b.rerankerScore.getD 0 ≤ a.rerankerScore.getD 0 := fun a b =>
    inferInstanceAs (Decidable (b.rerankerScore.getD 0 ≤ a.rerankerScore.getD 0))
  have hsome : ∀ x ∈ rankedResults.map fun r =>
      { r with rerankerScore := pairLookup reranked r.changeId },
      x.rerankerScore.isSome := by
    intro x hx
    obtain ⟨r, hr, rfl⟩ := List.mem_map.mp hx
    exact hall r hr
  have hcongr : (rankedResults.map fun r =>
        { r with rerankerScore := pairLookup reranked r.changeId }).insertionSort
          rerankLe =
      (rankedResults.map fun r =>
        { r with rerankerScore := pairLookup reranked r.changeId }).insertionSort
        (fun a b => b.rerankerScore.getD 0 ≤ a.rerankerScore.getD 0) := by
    apply insertionSort_rel_congr
    intro a ha b hb
    unfold rerankLe
    rw [if_pos ⟨hsome a ha, hsome b hb⟩]
  rw [hcongr]
  haveI : IsTotal RankedResult
      (fun a b => b.rerankerScore.getD 0 ≤ a.rerankerScore.getD 0) :=
    ⟨fun a b => le_total _ _⟩
  haveI : IsTrans RankedResult
      (fun a b => b.rerankerScore.getD 0 ≤ a.rerankerScore.getD 0) :=
    ⟨fun a b c h1 h2 => le_trans h2 h1⟩
  exact List.sorted_insertionSort _ _

/-- Witness for the amended C6: with every candidate scored by the reranker,
the output is sorted descending by reranker score. -/
theorem applyReranking_behavior_witness :
    List.Sorted (fun a b : RankedResult =>
      b.rerankerScore.getD 0 ≤ a.rerankerScore.getD 0)
      (applyReranking
        [⟨"A", none, none, none, none, none, none, 1, none⟩,
         ⟨"B", none, none, none, none, none, none, 2, none⟩]
        [("A", 10), ("B", 3)]) :=
  (applyReranking_behavior
    [⟨"A", none, none, none, none, none, none, 1, none⟩,
     ⟨"B", none, none, none, none, none, none, 2, none⟩]
    [("A", 10), ("B", 3)]).2.2 (by decide)

/-- C8 counterexample: for the spec's own example query at a concrete
`Date.now()` (not at a UTC midnight), enrichment extracts the sliding window
`[now − 48h, now − 24h]`, which is not the previous calendar day. -/
theorem yesterday_not_previous_calendar_day :
    (enrichFilters 1700000000000 "fixed bug in parser.ts yesterday" none).timeRange =
      some ⟨1699827200000, 1699913600000⟩ ∧
    specPreviousCalendarDay 1700000000000 = ⟨1699833600000, 1699920000000⟩ ∧
    (⟨1699827200000, 1699913600000⟩ : TimeRange) ≠
      specPreviousCalendarDay 1700000000000 := by
  refine ⟨?_, ?_, ?_⟩ <;> decide

/-- C8 (amended): a query containing "yesterday" and no "today" yields the
millisecond range `{start := now − 2·86400000, end := now − 86400000}` — the
24-hour window ending 24 hours before query time — and the example query
additionally yields the file pattern `**/parser.ts*`. -/
theorem yesterday_enrichment (now : ℤ) (expr : String)
    (h1 : containsPat "today" (expr.data.map Char.toLower) = false)
    (h2 : containsPat "yesterday" (expr.data.map Char.toLower) = true) :
    parseTimeExpression now expr =
      some ⟨now - 2 * 86400000, now - 86400000⟩ ∧
    extractFilePatterns "fixed bug in parser.ts yesterday" = ["**/parser.ts*"] := by
  constructor
  · unfold parseTimeExpression
    simp [h1, h2]
  · decide

/-- Witness for the amended C8 at the spec's example query and a concrete
`Date.now()`. -/
theorem yesterday_enrichment_witness :
    parseTimeExpression 1700000000000 "fixed bug in parser.ts yesterday" =
      some ⟨1700000000000 - 2 * 86400000, 1700000000000 - 86400000⟩ :=
  (yesterday_enrichment 1700000000000 "fixed bug in parser.ts yesterday"
    (by decide) (by decide)).1

end CodeHistorian
